import Mathlib

/-!
Shallow embedding of `src/comments/pelican/data.py` (comment thread engine).
-/

/-- One comment record, mirroring `Comment` in `data.py`.  Python's
`DummyComment` subclass is behaviourally inert (used only as a marker), so it
is embedded as the `isDummy` flag.  Equality in Python compares only `uid`
(`__eq__`), which is mirrored wherever list search happens. -/
structure PyComment where
  uid : String
  level : ℤ
  order : ℤ
  parent : String
  isDummy : Bool
deriving DecidableEq, Repr

/-- `Comment.__init__`: clamps negative `level`/`order` to 0 and replaces an
absent parent with the empty string.  (A `uid` of `None` would be drawn from
the thread's UID generator; callers in this development always supply one.) -/
def mkComment (level order : ℤ) (uid : String) (parent : Option String)
    (isDummy : Bool) : PyComment :=
  { uid := uid, level := max level 0, order := max order 0,
    parent := parent.getD "", isDummy := isDummy }

/-- Insert at a clamped nonnegative position, as Python `list.insert` does for
indices that may exceed the length (`take`/`drop` clamp at the length). -/
def pyInsertAt (l : List α) (n : ℕ) (x : α) : List α :=
  l.take n ++ x :: l.drop n

/-- Python `list.insert(i, x)` including negative indices:
a negative `i` addresses `max 0 (len + i)`. -/
def pyInsert (l : List α) (i : ℤ) (x : α) : List α :=
  if i < 0 then pyInsertAt l ((l.length : ℤ) + i).toNat x
  else pyInsertAt l i.toNat x

/-- Failure modes of the engine (Python exceptions). -/
inductive PyErr where
  | valueError
  | unboundLocal
  | indexError
  | malformedInt (s : String)
  | outOfFuel
deriving DecidableEq, Repr

/-- The mutable state of a `Thread`: its record list, the reserved placeholder
("dummy") uids, and the `next` order counter. -/
structure PyThread where
  slug : String
  comments : List PyComment
  dummies : List String
  next : ℤ
deriving DecidableEq, Repr

/-- `Thread.__init__`. -/
def initThread (slug : String) : PyThread :=
  { slug := slug, comments := [], dummies := [], next := 0 }

namespace Thread

/-- `Thread.find`: look up the first record with the given uid
(`list.index` with uid-equality).  On a miss, synthesize a dummy record whose
`order` is drawn from `next`, advance `next`, and reserve the uid in
`dummies`. -/
def find (t : PyThread) (uid : String) (level : ℤ) :
    (Option ℕ × PyComment) × PyThread :=
  let dummy := mkComment level 0 uid none true
  match t.comments.findIdx? (fun c => c.uid == uid) with
  | some i => ((some i, (t.comments.get? i).getD dummy), t)
  | none =>
      ((none, { dummy with order := t.next }),
       { t with next := t.next + 1, dummies := t.dummies ++ [uid] })

/-- Accumulator of the scanning loop in `Thread.insert_into_level`. -/
structure ScanSt where
  loc : Option ℕ
  ploc : Option ℕ
  lend : Option ℕ
  lar : ℤ
deriving DecidableEq, Repr

/-- The `for index, comment in enumerate(self.comments)` loop of
`Thread.insert_into_level`, carried out with an explicit index.  `lend`
(`level_end`) is computed but, as in the source, never used afterwards. -/
def scanGo (s : PyComment) : List PyComment → ℕ → ScanSt → ScanSt
  | [], _, st => st
  | c :: tl, idx, st =>
      let st1 := if c.uid == s.parent then { st with ploc := some idx } else st
      let st2 := if c.level == s.level then { st1 with lend := some idx } else st1
      let st3 :=
        if c.parent == s.parent && st2.lar ≤ c.order && c.order ≤ s.order then
          { st2 with loc := some idx, lar := c.order }
        else st2
      scanGo s tl (idx + 1) st3

/-- `Thread.insert_into_level`: scan for the slot, then `list.insert` there;
returns the raw location value (which may be `-1`) together with the new
state. -/
def insert_into_level (t : PyThread) (s : PyComment) : ℤ × PyThread :=
  let st := scanGo s t.comments 0 ⟨none, none, none, 0⟩
  let loci : ℤ :=
    match st.loc with
    | some i => (i : ℤ)
    | none =>
        match st.ploc with
        | some p => if s.level ≠ 0 then (p : ℤ) + 1 else -1
        | none => -1
  (loci, { t with comments := pyInsert t.comments loci s })

/-- Remove the first list element satisfying the predicate; `ValueError` if
none does (Python `list.remove`). -/
def pyRemoveFirst (p : α → Bool) : List α → Except PyErr (List α)
  | [] => .error .valueError
  | a :: tl =>
      if p a then .ok tl
      else do
        let tl' ← pyRemoveFirst p tl
        .ok (a :: tl')

/-- The descendant-collection loop of `Thread.replace_dummy`: walk the records
that followed the dummy, flipping `save` off at the first record whose level
equals the dummy's, appending to `children` while `save` holds and to `temp`
afterwards. -/
def partitionGo (dl : ℤ) : List PyComment → List PyComment → List PyComment →
    Bool → List PyComment × List PyComment
  | [], children, temp, _ => (children, temp)
  | c :: tl, children, temp, save =>
      let save := if c.level == dl then false else save
      if save then partitionGo dl tl (children ++ [c]) temp save
      else partitionGo dl tl children (temp ++ [c]) save

/-- `Thread.insert`, structured on explicit fuel: the source's `insert` and
`replace_dummy` call each other, so the body of `replace_dummy` appears inline
in the dummy branch here to keep the recursion structural on the fuel (sized
by the wrappers below so that it can never run out); `replaceF` afterwards
names that body on its own, and `insertF_dummy` re-establishes the source's
method structure. -/
def insertF : ℕ → PyThread → PyComment → Except PyErr (ℤ × PyComment × PyThread)
  | 0, _, _ => .error .outOfFuel
  | fuel + 1, t, c =>
      if c.uid ∈ t.dummies then
        -- Thread.replace_dummy: locate the dummy, splice it and the records
        -- gathered under it out, re-insert the real comment through `insert`,
        -- and put the gathered records back one past the returned location.
        -- A `find` miss here makes Python's `comments.remove(dummy)` raise
        -- `ValueError` (state after an exception is not modelled).
        let ((posOpt, dummy), t1) := find t c.uid c.level
        match posOpt with
        | none => .error .valueError
        | some loc => do
            let comments1 := t1.comments.eraseIdx loc
            let (children, temp) :=
              partitionGo dummy.level (comments1.drop loc) [] (comments1.take loc) true
            let dummies1 ← pyRemoveFirst (fun u => u == c.uid) t1.dummies
            let t2 := { t1 with comments := temp, dummies := dummies1 }
            let (loc2, c', t3) ← insertF fuel t2 c
            let final := (children.reverse).foldl (fun l ch => pyInsert l (loc2 + 1) ch) t3.comments
            .ok (loc2, c', { t3 with comments := final })
      else if c.parent ≠ "" then
        let ((pos, parent), t1) := find t c.parent (c.level - 1)
        let c' := { c with level := parent.level + 1 }
        match pos with
        | some _ =>
            let (loc, t2) := insert_into_level t1 c'
            .ok (loc, c', t2)
        | none =>
            -- no parent found, insert new dummy parent into end of level
            let (_, t2) := insert_into_level t1 parent
            let (loc, t3) := insert_into_level t2 c'
            .ok (loc, c', t3)
      else
        let (loc, t2) := insert_into_level t c
        .ok (loc, c, t2)

/-- `Thread.replace_dummy` as its own function (the body inlined in the dummy
branch of `insertF`), with the re-insertion of the real comment going through
`insertF` at the given fuel. -/
def replaceF (fuel : ℕ) (t : PyThread) (c : PyComment) :
    Except PyErr (ℤ × PyComment × PyThread) :=
  let ((posOpt, dummy), t1) := find t c.uid c.level
  match posOpt with
  | none => .error .valueError
  | some loc => do
      let comments1 := t1.comments.eraseIdx loc
      let (children, temp) :=
        partitionGo dummy.level (comments1.drop loc) [] (comments1.take loc) true
      let dummies1 ← pyRemoveFirst (fun u => u == c.uid) t1.dummies
      let t2 := { t1 with comments := temp, dummies := dummies1 }
      let (loc2, c', t3) ← insertF fuel t2 c
      let final := (children.reverse).foldl (fun l ch => pyInsert l (loc2 + 1) ch) t3.comments
      .ok (loc2, c', { t3 with comments := final })

/-- `Thread.insert` with fuel ample for every reachable path. -/
def insert (t : PyThread) (c : PyComment) : Except PyErr (ℤ × PyComment × PyThread) :=
  insertF (t.dummies.length + 2) t c

/-- `Thread.replace_dummy` with the same fuel accounting `insert` hands it. -/
def replace_dummy (t : PyThread) (c : PyComment) :
    Except PyErr (ℤ × PyComment × PyThread) :=
  replaceF (t.dummies.length + 1) t c

/-- `Thread.add`: allocate/update the `next` counter, build the record, insert
it, and return the (possibly level-rewritten) record with the new state. -/
def add (t : PyThread) (level : ℤ) (order : Option ℤ) (uid : String)
    (parent : Option String) : Except PyErr (PyComment × PyThread) :=
  let stage : ℤ × PyThread :=
    match order with
    | none => (t.next, { t with next := t.next + 1 })
    | some o => if t.next < o then (o, { t with next := o + 1 }) else (o, t)
  let c := mkComment level stage.1 uid parent false
  match insert stage.2 c with
  | .ok (_, c', t2) => .ok (c', t2)
  | .error e => .error e

end Thread


/-- Python's notion of ASCII whitespace for `str.strip()`. -/
def pyWS (c : Char) : Bool :=
  c = ' ' || c = '\t' || c = '\n' || c = '\r' || c = Char.ofNat 11 || c = Char.ofNat 12

/-- Python `str.strip()`: drop leading and trailing whitespace. -/
def pyStrip (s : String) : String :=
  ⟨((s.data.dropWhile pyWS).reverse.dropWhile pyWS).reverse⟩

/-- Split a character list at every occurrence of the separator (the
character-level core of Python `str.split(sep)`); always returns at least one
(possibly empty) piece. -/
def splitChar (sep : Char) : List Char → List (List Char)
  | [] => [[]]
  | c :: tl =>
      match splitChar sep tl with
      | [] => [[]]
      | h :: t => if c = sep then [] :: h :: t else (c :: h) :: t

/-- Python `str.split(sep)` for a one-character separator. -/
def pySplit (sep : Char) (s : String) : List String :=
  (splitChar sep s.data).map String.mk

/-- Join pieces with the separator (inverse of `splitChar`), for
re-assembling everything after the first colon of a metadata line. -/
def joinChar (sep : Char) : List (List Char) → List Char
  | [] => []
  | [l] => l
  | l :: ls => l ++ sep :: joinChar sep ls

/-- Accumulate the decimal value of a digit run; `none` on a non-digit. -/
def digitsValGo : ℕ → List Char → Option ℕ
  | acc, [] => some acc
  | acc, c :: tl =>
      if c.isDigit then digitsValGo (acc * 10 + (c.toNat - Char.toNat (Char.ofNat 48))) tl
      else none

/-- Python `int(...)` on an already-stripped string: an optional sign
followed by at least one digit (digit-group underscores are not modelled). -/
def pyIntStr (s : String) : Option ℤ :=
  match s.data with
  | [] => none
  | c :: rest =>
      if c = Char.ofNat 45 then
        if rest = [] then none else (digitsValGo 0 rest).map (fun n => -(n : ℤ))
      else if c = Char.ofNat 43 then
        if rest = [] then none else (digitsValGo 0 rest).map (fun n => (n : ℤ))
      else (digitsValGo 0 (c :: rest)).map (fun n => (n : ℤ))

/-- A parsed thread-log line: the four fields handed to `Thread.add`. -/
structure Entry where
  level : ℤ
  order : ℤ
  uid : String
  parent : Option String
deriving DecidableEq, Repr

namespace Thread

/-- Python `int(...)` on an already-stripped field; a failure is the fatal
malformed-thread-line error. -/
def pyInt (s : String) : Except PyErr ℤ :=
  match pyIntStr s with
  | some n => .ok n
  | none => .error (.malformedInt s)

/-- `Thread._entry`: split a line on tabs, strip every part, parse `level` and
`order` as integers, take the uid, and treat a missing fourth field as "no
parent" (`IndexError` caught in the source). -/
def entryOfLine (line : String) : Except PyErr Entry := do
  let parts := (pySplit (Char.ofNat 9) line).map pyStrip
  let p0 ← match parts.get? 0 with | some s => .ok s | none => .error .indexError
  let lvl ← pyInt p0
  let p1 ← match parts.get? 1 with | some s => .ok s | none => .error .indexError
  let ord ← pyInt p1
  let p2 ← match parts.get? 2 with | some s => .ok s | none => .error .indexError
  .ok { level := lvl, order := ord, uid := p2, parent := parts.get? 3 }

/-- Replay a list of already-parsed entries through `add` (the body of
`Thread.load`'s loop). -/
def replayFrom (t : PyThread) (es : List Entry) : Except PyErr PyThread :=
  es.foldlM (fun t e => do
    let (_, t') ← add t e.level (some e.order) e.uid e.parent
    .ok t') t

/-- `Thread.load`: reset `comments` (but, as in the source, not `dummies` or
`next`) and replay each parsed line through `add`. -/
def load (t : PyThread) (lines : List String) : Except PyErr PyThread := do
  let es ← lines.mapM entryOfLine
  replayFrom { t with comments := [] } es

/-- Replay a thread-log into a fresh thread. -/
def replayEntries (es : List Entry) : Except PyErr PyThread :=
  replayFrom (initThread "slug") es

/-- The tab-separated line `Thread.save` prints for one record. -/
def lineOfComment (c : PyComment) : String :=
  toString c.level ++ "\t" ++ toString c.order ++ "\t" ++ c.uid ++ "\t" ++ c.parent

/-- The (level, order, identifier, parent) tuple `Thread.save` writes for one
record (the parent field is the stored string, empty for "no parent"). -/
def entryOfComment (c : PyComment) : Entry :=
  { level := c.level, order := c.order, uid := c.uid, parent := some c.parent }

/-- The tuples `Thread.save` writes, one per record in the current linear
order. -/
def saveEntries (t : PyThread) : List Entry :=
  t.comments.map entryOfComment

/-- `Thread.save`: ensure the per-slug comment directory exists
(`os.makedirs(..., exist_ok=True)`, first component of the result), then write
one line per record in linear order and set `next` to one past the final loop
index.  With no records the loop never binds its variable and the final
`self.next = index + 1` raises `UnboundLocalError` (after the file was already
opened for writing). -/
def save (t : PyThread) (dirs : List String) :
    List String × Except PyErr (List String × PyThread) :=
  let dirs' := if t.slug ∈ dirs then dirs else dirs ++ [t.slug]
  match t.comments with
  | [] => (dirs', .error .unboundLocal)
  | _ => (dirs', .ok (t.comments.map lineOfComment,
                      { t with next := (t.comments.length : ℤ) }))

end Thread

/-- Failure modes of `UIDMaker.__call__`. -/
inductive UIDErr where
  | uidExists (uid : String)
  | tooManyRetries (tries : ℕ)
  | fuelOut
deriving DecidableEq, Repr

/-- The `while True` loop of `UIDMaker.__call__`.  `cand i` abstracts the
candidate produced by `generate()` (three random bytes pushed through the
hashids encoder, an external source) on the `i`-th try; the loop consumes
explicit fuel, sized by the caller so that it can never run out before the
retry cap fires. -/
def uidCallGo (cand : ℕ → String) (retry : Bool) (maxRetries : ℕ) :
    Finset String → ℕ → ℕ → Except UIDErr (String × Finset String)
  | _, _, 0 => .error .fuelOut
  | uids, tries, fuel + 1 =>
      let tries' := tries + 1
      let uid := cand tries'
      if uid ∈ uids then
        if retry = false then .error (.uidExists uid)
        else if maxRetries < tries' then .error (.tooManyRetries tries')
        else uidCallGo cand retry maxRetries uids tries' fuel
      else .ok (uid, insert uid uids)

/-- `UIDMaker.__call__`: generate candidates until one is not yet known, then
reserve and return it; without `retry`, a first collision raises `UIDExists`;
with it, exceeding `max_retries` (10 in the source) raises
`UIDTooManyRetries`. -/
def uidCall (cand : ℕ → String) (uids : Finset String) (retry : Bool)
    (maxRetries : ℕ) : Except UIDErr (String × Finset String) :=
  uidCallGo cand retry maxRetries uids 0 (maxRetries + 1)

/-- A sequence of `UIDMaker.__call__` invocations with default arguments
(`retry=True`, cap 10), each drawing from its own candidate stream, threading
the known-uid set through. -/
def uidCalls : List (ℕ → String) → Finset String →
    Except UIDErr (List String × Finset String)
  | [], uids => .ok ([], uids)
  | cand :: tl, uids =>
      match uidCall cand uids true 10 with
      | .error e => .error e
      | .ok (u, uids') =>
          match uidCalls tl uids' with
          | .error e => .error e
          | .ok (us, uids'') => .ok (u :: us, uids'')

/-- Failure modes of `Comment.load`. -/
inductive LoadErr where
  | ioError
  | assertionError (line : String)
deriving DecidableEq, Repr

/-- A metadata value: the `date` key's value goes through the external
`arrow.get` transform (kept abstract as a tagged raw string); every other
value stays a plain string. -/
inductive MetaVal where
  | str (s : String)
  | date (raw : String)
deriving DecidableEq, Repr

/-- `Comment._parse_metadata`: `assert ":" in line` (an `AssertionError`, not
an `IOError`), then split at the first colon and strip both sides. -/
def parseMetadataLine (line : String) : Except LoadErr (String × MetaVal) :=
  if line.data.contains ':' then
    let ps := splitChar ':' line.data
    let key := pyStrip ⟨ps.headD []⟩
    let val := pyStrip ⟨joinChar ':' ps.tail⟩
    .ok (key, if key = "date" then .date val else .str val)
  else .error (.assertionError line)

/-- Reassemble the remaining lines into the raw body text. -/
def joinLines (ls : List String) : String :=
  ⟨joinChar (Char.ofNat 10) (ls.map String.data)⟩

/-- The metadata-reading loop of `Comment.load`: consume leading lines until a
blank one, parsing each as `key: value`; the remaining lines are the raw
body. -/
def commentLoadGo : List String → List (String × MetaVal) →
    Except LoadErr (List (String × MetaVal) × String)
  | [], md => .ok (md, "")
  | line :: tl, md =>
      if pyStrip line = "" then .ok (md, joinLines tl)
      else
        match parseMetadataLine line with
        | .error e => .error e
        | .ok kv => commentLoadGo tl (md ++ [kv])

/-- `Comment.load` over a file modelled as an optional list of lines (`none`
is a missing file, whose `open` raises `IOError`).  Only `IOError` is caught
by the `except IOError` handler — an `ignore_errors=True` load substitutes the
`"[[deleted]]"` placeholder body for a missing file, but an `AssertionError`
from a malformed metadata line propagates regardless. -/
def commentLoad (file : Option (List String)) (ignoreErrors : Bool) :
    Except LoadErr (List (String × MetaVal) × String) :=
  match file with
  | none => if ignoreErrors then .ok ([], "[[deleted]]") else .error .ioError
  | some lines => commentLoadGo lines []

namespace Thread

/-- The dummy branch of `insertF` is exactly `replaceF` at one less fuel:
this re-establishes the source's `insert`/`replace_dummy` method structure. -/
theorem insertF_dummy (fuel : ℕ) (t : PyThread) (c : PyComment)
    (h : c.uid ∈ t.dummies) : insertF (fuel + 1) t c = replaceF fuel t c := by
  simp [insertF, replaceF, h]

/-- Last index (if any) at which the predicate holds. -/
def lastIdxOf (p : α → Bool) : List α → Option ℕ
  | [] => none
  | a :: tl =>
      match lastIdxOf p tl with
      | some j => some (j + 1)
      | none => if p a then some 0 else none

/-- Eligibility for the sibling slot in `insert_into_level`'s scan, relative
to a lower order bound `lar` (the running `largest`). -/
def Elig (s : PyComment) (lar : ℤ) (c : PyComment) : Prop :=
  c.parent = s.parent ∧ lar ≤ c.order ∧ c.order ≤ s.order

instance (s : PyComment) (lar : ℤ) (c : PyComment) : Decidable (Elig s lar c) := by
  unfold Elig; infer_instance

/-- One step of the scanning loop, with all four accumulator components
written as parallel updates. -/
theorem scanGo_cons (s c : PyComment) (tl : List PyComment) (idx : ℕ) (st : ScanSt) :
    scanGo s (c :: tl) idx st = scanGo s tl (idx + 1)
      ⟨if c.parent == s.parent && st.lar ≤ c.order && c.order ≤ s.order then some idx else st.loc,
       if c.uid == s.parent then some idx else st.ploc,
       if c.level == s.level then some idx else st.lend,
       if c.parent == s.parent && st.lar ≤ c.order && c.order ≤ s.order then c.order else st.lar⟩ := by
  simp only [scanGo]
  split <;> split <;> split <;> rfl

/-- The scan condition as a proposition. -/
theorem scan_cond_iff (s c : PyComment) (lar : ℤ) :
    (c.parent == s.parent && lar ≤ c.order && c.order ≤ s.order) = true ↔ Elig s lar c := by
  simp [Elig, Bool.and_eq_true, beq_iff_eq, decide_eq_true_eq, and_assoc]


/-- If nothing in the list is eligible relative to the running `largest`, the
scan leaves `location` and `largest` untouched. -/
theorem scanGo_loc_none (s : PyComment) :
    ∀ (cs : List PyComment) (idx : ℕ) (st : ScanSt),
      (∀ c ∈ cs, ¬ Elig s st.lar c) →
      (scanGo s cs idx st).loc = st.loc ∧ (scanGo s cs idx st).lar = st.lar := by
  intro cs
  induction cs with
  | nil => intro idx st _; exact ⟨rfl, rfl⟩
  | cons c tl ih =>
      intro idx st h
      rw [scanGo_cons]
      by_cases hb : (c.parent == s.parent && st.lar ≤ c.order && c.order ≤ s.order) = true
      · exact absurd ((scan_cond_iff s c st.lar).mp hb) (h c (by simp))
      · rw [Bool.not_eq_true] at hb
        rw [hb]
        simp only [if_neg Bool.false_ne_true]
        exact ih (idx + 1) ⟨st.loc, _, _, st.lar⟩ (fun x hx => h x (by simp [hx]))

/-- If some record is eligible, the scan selects the latest index among those
attaining the maximal eligible order: the chosen record is eligible, every
eligible record has strictly smaller order or the same order at an index no
later, `location` ends on the chosen index (offset by the enumeration base)
and `largest` ends on its order. -/
theorem scanGo_loc_some (s : PyComment) :
    ∀ (cs : List PyComment) (idx : ℕ) (st : ScanSt),
      (∃ c ∈ cs, Elig s st.lar c) →
      ∃ j cj, cs.get? j = some cj ∧ Elig s st.lar cj ∧
        (∀ k ck, cs.get? k = some ck → Elig s st.lar ck →
          ck.order < cj.order ∨ (ck.order = cj.order ∧ k ≤ j)) ∧
        (scanGo s cs idx st).loc = some (idx + j) ∧
        (scanGo s cs idx st).lar = cj.order := by
  intro cs
  induction cs with
  | nil => intro idx st h; simp at h
  | cons c tl ih =>
      intro idx st h
      rw [scanGo_cons]
      by_cases hb : (c.parent == s.parent && st.lar ≤ c.order && c.order ≤ s.order) = true
      · -- head is eligible: the step sets loc := idx, lar := c.order
        have hc : Elig s st.lar c := (scan_cond_iff s c st.lar).mp hb
        rw [hb]
        simp only [eq_self_iff_true, if_true]
        by_cases htl : ∃ x ∈ tl, Elig s c.order x
        · obtain ⟨j', cj', hget, helig', hmax', hloc', hlar'⟩ :=
            ih (idx + 1) ⟨some idx, if c.uid == s.parent then some idx else st.ploc,
              if c.level == s.level then some idx else st.lend, c.order⟩ htl
          dsimp only at helig' hmax'
          refine ⟨j' + 1, cj', by simpa using hget, ?_, ?_, ?_, ?_⟩
          · exact ⟨helig'.1, le_trans hc.2.1 helig'.2.1, helig'.2.2⟩
          · intro k ck hk hek
            match k with
            | 0 =>
                simp only [List.get?_cons_zero, Option.some.injEq] at hk
                subst hk
                rcases lt_or_eq_of_le helig'.2.1 with hlt | heq
                · exact Or.inl hlt
                · exact Or.inr ⟨heq, Nat.zero_le _⟩
            | k' + 1 =>
                simp only [List.get?_cons_succ] at hk
                by_cases hord : c.order ≤ ck.order
                · rcases hmax' k' ck hk ⟨hek.1, hord, hek.2.2⟩ with h1 | ⟨h1, h2⟩
                  · exact Or.inl h1
                  · exact Or.inr ⟨h1, Nat.succ_le_succ h2⟩
                · exact Or.inl (lt_of_lt_of_le (lt_of_not_le hord) helig'.2.1)
          · rw [hloc']; congr 1; omega
          · exact hlar'
        · push_neg at htl
          have hnone := scanGo_loc_none s tl (idx + 1)
            ⟨some idx, if c.uid == s.parent then some idx else st.ploc,
             if c.level == s.level then some idx else st.lend, c.order⟩
            (fun x hx => htl x hx)
          dsimp only at hnone
          refine ⟨0, c, rfl, hc, ?_, ?_, ?_⟩
          · intro k ck hk hek
            match k with
            | 0 =>
                simp only [List.get?_cons_zero, Option.some.injEq] at hk
                subst hk
                exact Or.inr ⟨rfl, le_refl 0⟩
            | k' + 1 =>
                simp only [List.get?_cons_succ] at hk
                by_cases hord : c.order ≤ ck.order
                · exact absurd ⟨hek.1, hord, hek.2.2⟩ (htl ck (List.get?_mem hk))
                · exact Or.inl (lt_of_not_le hord)
          · rw [hnone.1]; congr 1
          · exact hnone.2
      · -- head not eligible: loc and lar pass through unchanged
        have hc : ¬ Elig s st.lar c := fun he => hb ((scan_cond_iff s c st.lar).mpr he)
        rw [Bool.not_eq_true] at hb
        rw [hb]
        simp only [if_neg Bool.false_ne_true]
        have h' : ∃ x ∈ tl, Elig s st.lar x := by
          rcases h with ⟨x, hx, hex⟩
          rcases List.mem_cons.mp hx with rfl | hx'
          · exact absurd hex hc
          · exact ⟨x, hx', hex⟩
        obtain ⟨j', cj', hget, helig', hmax', hloc', hlar'⟩ :=
          ih (idx + 1) ⟨st.loc, if c.uid == s.parent then some idx else st.ploc,
            if c.level == s.level then some idx else st.lend, st.lar⟩ h'
        dsimp only at helig' hmax'
        refine ⟨j' + 1, cj', by simpa using hget, helig', ?_, ?_, ?_⟩
        · intro k ck hk hek
          match k with
          | 0 =>
              simp only [List.get?_cons_zero, Option.some.injEq] at hk
              subst hk
              exact absurd hek hc
          | k' + 1 =>
              simp only [List.get?_cons_succ] at hk
              rcases hmax' k' ck hk hek with h1 | ⟨h1, h2⟩
              · exact Or.inl h1
              · exact Or.inr ⟨h1, Nat.succ_le_succ h2⟩
        · rw [hloc']; congr 1; omega
        · exact hlar'

/-- Head equation of `List.findIdx?` without the internal start index. -/
theorem findIdxQ_cons (p : α → Bool) (x : α) (xs : List α) :
    (x :: xs).findIdx? p = if p x then some 0 else (xs.findIdx? p).map (· + 1) := by
  simp [List.findIdx?_cons]

/-- A successful `findIdx?` returns the first index satisfying the
predicate. -/
theorem findIdxQ_spec (p : α → Bool) :
    ∀ (l : List α) (i : ℕ), l.findIdx? p = some i →
      ∃ a, l.get? i = some a ∧ p a = true ∧
        ∀ j b, j < i → l.get? j = some b → p b = false := by
  intro l
  induction l with
  | nil => intro i h; simp [List.findIdx?] at h
  | cons x xs ih =>
      intro i h
      rw [findIdxQ_cons] at h
      by_cases hx : p x = true
      · rw [if_pos hx] at h
        injection h with h
        subst h
        exact ⟨x, rfl, hx, fun j b hj _ => absurd hj (Nat.not_lt_zero j)⟩
      · rw [if_neg hx] at h
        cases hfi : xs.findIdx? p with
        | none => rw [hfi] at h; simp at h
        | some i' =>
            rw [hfi] at h
            simp only [Option.map_some', Option.some.injEq] at h
            subst h
            obtain ⟨a, hget, hpa, hmax⟩ := ih i' hfi
            refine ⟨a, by simpa using hget, hpa, ?_⟩
            intro j b hj hb
            match j with
            | 0 =>
                simp only [List.get?_cons_zero, Option.some.injEq] at hb
                subst hb
                exact Bool.not_eq_true _ ▸ (by simpa using hx)
            | j' + 1 =>
                exact hmax j' b (by omega) (by simpa using hb)

/-- A failed `findIdx?` means no element satisfies the predicate. -/
theorem findIdxQ_none (p : α → Bool) :
    ∀ (l : List α), l.findIdx? p = none → ∀ a ∈ l, p a = false := by
  intro l
  induction l with
  | nil => intro _ a ha; simp at ha
  | cons x xs ih =>
      intro h a ha
      rw [findIdxQ_cons] at h
      by_cases hx : p x = true
      · rw [if_pos hx] at h; simp at h
      · rw [if_neg hx] at h
        rcases List.mem_cons.mp ha with rfl | ha'
        · simpa using hx
        · cases hfi : xs.findIdx? p with
          | none => exact ih hfi a ha'
          | some i' => rw [hfi] at h; simp at h

/-- `findIdx?` on a list whose prefix all fails the predicate and whose last
element satisfies it finds exactly the last position. -/
theorem findIdxQ_append (p : α → Bool) :
    ∀ (pre : List α) (x : α), (∀ a ∈ pre, p a = false) → p x = true →
      (pre ++ [x]).findIdx? p = some pre.length := by
  intro pre
  induction pre with
  | nil => intro x _ hx; simp [findIdxQ_cons, hx]
  | cons a tl ih =>
      intro x h hx
      rw [List.cons_append, findIdxQ_cons, if_neg (by simp [h a (by simp)]),
        ih x (fun b hb => h b (by simp [hb])) hx]
      rfl

/-- A failed `lastIdxOf` means no element satisfies the predicate. -/
theorem lastIdxOf_none (p : α → Bool) :
    ∀ (l : List α), lastIdxOf p l = none → ∀ a ∈ l, p a = false := by
  intro l
  induction l with
  | nil => intro _ a ha; simp at ha
  | cons x xs ih =>
      intro h a ha
      unfold lastIdxOf at h
      cases hfi : lastIdxOf p xs with
      | some j' => rw [hfi] at h; simp at h
      | none =>
          rw [hfi] at h
          by_cases hx : p x = true
          · rw [if_pos hx] at h; simp at h
          · rcases List.mem_cons.mp ha with rfl | ha'
            · simpa using hx
            · exact ih hfi a ha'

/-- A successful `lastIdxOf` returns the last index satisfying the
predicate. -/
theorem lastIdxOf_spec (p : α → Bool) :
    ∀ (l : List α) (j : ℕ), lastIdxOf p l = some j →
      ∃ a, l.get? j = some a ∧ p a = true ∧
        ∀ k b, l.get? k = some b → p b = true → k ≤ j := by
  intro l
  induction l with
  | nil => intro j h; simp [lastIdxOf] at h
  | cons x xs ih =>
      intro j h
      unfold lastIdxOf at h
      cases hfi : lastIdxOf p xs with
      | some j' =>
          rw [hfi] at h
          injection h with h
          subst h
          obtain ⟨a, hget, hpa, hmax⟩ := ih j' hfi
          refine ⟨a, by simpa using hget, hpa, ?_⟩
          intro k b hk hb
          match k with
          | 0 => exact Nat.zero_le _
          | k' + 1 =>
              simp only [List.get?_cons_succ] at hk
              exact Nat.succ_le_succ (hmax k' b hk hb)
      | none =>
          rw [hfi] at h
          by_cases hx : p x = true
          · rw [if_pos hx] at h
            injection h with h
            subst h
            refine ⟨x, rfl, hx, ?_⟩
            intro k b hk hb
            match k with
            | 0 => exact Nat.le_refl 0
            | k' + 1 =>
                simp only [List.get?_cons_succ] at hk
                rw [lastIdxOf_none p xs hfi b (List.get?_mem hk)] at hb
                simp at hb
          · rw [if_neg hx] at h; simp at h

/-- `lastIdxOf` on a list ending in a satisfying element is that last
position. -/
theorem lastIdxOf_append (p : α → Bool) :
    ∀ (pre : List α) (x : α), p x = true →
      lastIdxOf p (pre ++ [x]) = some pre.length := by
  intro pre
  induction pre with
  | nil => intro x hx; simp [lastIdxOf, hx]
  | cons a tl ih =>
      intro x hx
      rw [List.cons_append]
      unfold lastIdxOf
      rw [ih x hx]
      rfl

/-- Head equation of `lastIdxOf`. -/
theorem lastIdxOf_cons (p : α → Bool) (a : α) (tl : List α) :
    lastIdxOf p (a :: tl) =
      (match lastIdxOf p tl with
       | some j => some (j + 1)
       | none => if p a then some 0 else none) := rfl

/-- The `parent_loc` component of the scan is the last index whose record's
uid equals the subject's parent (or the initial value if there is none). -/
theorem scanGo_ploc (s : PyComment) :
    ∀ (cs : List PyComment) (idx : ℕ) (st : ScanSt),
      (scanGo s cs idx st).ploc =
        (match lastIdxOf (fun c => c.uid == s.parent) cs with
         | some j => some (idx + j)
         | none => st.ploc) := by
  intro cs
  induction cs with
  | nil => intro idx st; rfl
  | cons c tl ih =>
      intro idx st
      rw [scanGo_cons, ih, lastIdxOf_cons]
      cases hfi : lastIdxOf (fun c => c.uid == s.parent) tl with
      | some j =>
          dsimp only
          congr 1
          omega
      | none =>
          by_cases hx : (c.uid == s.parent) = true
          · rw [hx]
            dsimp only
            simp only [eq_self_iff_true, if_true]
            congr 1
          · rw [Bool.not_eq_true] at hx
            rw [hx]
            dsimp only
            simp only [if_neg Bool.false_ne_true]

/-- C2 (amended): for every thread state with nonnegative record orders,
`insert_into_level` places the subject immediately BEFORE the sibling (same
`parent_identifier`) with the maximal order satisfying
`order <= subject.order` (at the latest such index on ties); if no such
sibling exists, the subject is placed immediately after the last record whose
uid is the subject's parent when `subject.level` is non-zero and such a record
is present, and otherwise (top-level subject, or no parent record) it is
placed at Python's `insert(-1, ...)` position: just before the last record,
not at the very end (sole element when the list is empty). -/
theorem insert_into_level_slot_spec (t : PyThread) (s : PyComment)
    (hord : ∀ c ∈ t.comments, 0 ≤ c.order) :
    ((∃ c ∈ t.comments, c.parent = s.parent ∧ c.order ≤ s.order) →
      ∃ j cj, t.comments.get? j = some cj ∧ cj.parent = s.parent ∧ cj.order ≤ s.order ∧
        (∀ k ck, t.comments.get? k = some ck → ck.parent = s.parent → ck.order ≤ s.order →
          ck.order < cj.order ∨ (ck.order = cj.order ∧ k ≤ j)) ∧
        Thread.insert_into_level t s =
          ((j : ℤ), { t with comments := t.comments.take j ++ s :: t.comments.drop j }))
    ∧ ((¬ ∃ c ∈ t.comments, c.parent = s.parent ∧ c.order ≤ s.order) →
        (((∃ c ∈ t.comments, c.uid = s.parent) ∧ s.level ≠ 0) →
          ∃ p cp, t.comments.get? p = some cp ∧ cp.uid = s.parent ∧
            (∀ q cq, t.comments.get? q = some cq → cq.uid = s.parent → q ≤ p) ∧
            Thread.insert_into_level t s =
              ((p : ℤ) + 1,
               { t with comments := t.comments.take (p + 1) ++ s :: t.comments.drop (p + 1) }))
        ∧ (((¬ ∃ c ∈ t.comments, c.uid = s.parent) ∨ s.level = 0) →
            Thread.insert_into_level t s =
              (-1, { t with comments :=
                t.comments.take (t.comments.length - 1) ++ s ::
                  t.comments.drop (t.comments.length - 1) }))) := by
  constructor
  · intro hA
    have hA' : ∃ c ∈ t.comments, Elig s (0 : ℤ) c := by
      obtain ⟨c, hc, h1, h2⟩ := hA
      exact ⟨c, hc, h1, hord c hc, h2⟩
    obtain ⟨j, cj, hget, helig, hmax, hloc, hlar⟩ :=
      scanGo_loc_some s t.comments 0 ⟨none, none, none, 0⟩ hA'
    dsimp only at helig hmax hloc hlar
    rw [Nat.zero_add] at hloc
    refine ⟨j, cj, hget, helig.1, helig.2.2, ?_, ?_⟩
    · intro k ck hk h1 h2
      exact hmax k ck hk ⟨h1, hord ck (List.get?_mem hk), h2⟩
    · simp only [Thread.insert_into_level]
      rw [hloc]
      dsimp only
      simp only [pyInsert, if_neg (not_lt.mpr (Int.natCast_nonneg j)), Int.toNat_natCast,
        pyInsertAt]
  · intro hB
    have hB' : ∀ c ∈ t.comments, ¬ Elig s (0 : ℤ) c := by
      intro c hc he
      exact hB ⟨c, hc, he.1, he.2.2⟩
    have hnone := scanGo_loc_none s t.comments 0 ⟨none, none, none, 0⟩ hB'
    dsimp only at hnone
    constructor
    · rintro ⟨⟨c, hc, hcp⟩, hlev⟩
      have hplocEq := scanGo_ploc s t.comments 0 ⟨none, none, none, 0⟩
      cases hfi : lastIdxOf (fun x => x.uid == s.parent) t.comments with
      | none =>
          exact absurd (by simpa using lastIdxOf_none _ _ hfi c hc) (by simpa using hcp)
      | some p =>
          rw [hfi] at hplocEq
          dsimp only at hplocEq
          rw [Nat.zero_add] at hplocEq
          obtain ⟨cp, hgetp, hcpp, hmaxp⟩ := lastIdxOf_spec _ t.comments p hfi
          refine ⟨p, cp, hgetp, by simpa using hcpp, ?_, ?_⟩
          · intro q cq hq hquid
            exact hmaxp q cq hq (by simpa using hquid)
          · simp only [Thread.insert_into_level]
            rw [hnone.1, hplocEq]
            dsimp only
            rw [if_pos hlev]
            have hnn : ¬ ((p : ℤ) + 1 < 0) := by omega
            have htn : ((p : ℤ) + 1).toNat = p + 1 := by omega
            simp only [pyInsert, if_neg hnn, htn, pyInsertAt]
    · intro hcase
      have hplocEq := scanGo_ploc s t.comments 0 ⟨none, none, none, 0⟩
      have hlen : ((t.comments.length : ℤ) + -1).toNat = t.comments.length - 1 := by omega
      rcases hcase with hnop | hlev0
      · cases hfi : lastIdxOf (fun x => x.uid == s.parent) t.comments with
        | some p =>
            obtain ⟨cp, hgetp, hcpp, _⟩ := lastIdxOf_spec _ t.comments p hfi
            exact absurd ⟨cp, List.get?_mem hgetp, by simpa using hcpp⟩ hnop
        | none =>
            rw [hfi] at hplocEq
            dsimp only at hplocEq
            simp only [Thread.insert_into_level]
            rw [hnone.1, hplocEq]
            dsimp only
            simp only [pyInsert, if_pos (by omega : (-1 : ℤ) < 0), hlen, pyInsertAt]
      · cases hfi : lastIdxOf (fun x => x.uid == s.parent) t.comments with
        | some p =>
            rw [hfi] at hplocEq
            dsimp only at hplocEq
            simp only [Thread.insert_into_level]
            rw [hnone.1, hplocEq]
            dsimp only
            rw [if_neg (by simp [hlev0])]
            simp only [pyInsert, if_pos (by omega : (-1 : ℤ) < 0), hlen, pyInsertAt]
        | none =>
            rw [hfi] at hplocEq
            dsimp only at hplocEq
            simp only [Thread.insert_into_level]
            rw [hnone.1, hplocEq]
            dsimp only
            simp only [pyInsert, if_pos (by omega : (-1 : ℤ) < 0), hlen, pyInsertAt]

/-- The thread state of the repository's `test_insert_into_level_normal`
(records `comment1` level 0 order 200, `comment2` level 1 under `comment1`,
`comment3` level 0 order 100). -/
def c2state : PyThread :=
  { slug := "test-99",
    comments := [mkComment 0 200 "comment1" none false,
                 mkComment 1 0 "comment2" (some "comment1") false,
                 mkComment 0 100 "comment3" none false],
    dummies := [], next := 0 }

/-- The subject of the first insertion in that test. -/
def c2subj : PyComment := mkComment 0 150 "comment4" none false

/-- C2 (counterexample): at the repository's own test state, the subject with
order 150 lands immediately BEFORE its maximal lower sibling `comment3`
(giving `[c1, c2, c4, c3]`), not immediately after it as the claim states; and
a top-level subject with order 99 (below every sibling) lands just before the
last record (`[c1, c2, c4, c5, c3]`), not appended to the very end. -/
theorem insert_into_level_slot_cex :
    ((Thread.insert_into_level c2state c2subj).2.comments.map PyComment.uid
        = ["comment1", "comment2", "comment4", "comment3"]
      ∧ ["comment1", "comment2", "comment4", "comment3"]
          ≠ ["comment1", "comment2", "comment3", "comment4"])
    ∧ ((Thread.insert_into_level (Thread.insert_into_level c2state c2subj).2
          (mkComment 0 99 "comment5" none false)).2.comments.map PyComment.uid
        = ["comment1", "comment2", "comment4", "comment5", "comment3"]
      ∧ ["comment1", "comment2", "comment4", "comment5", "comment3"]
          ≠ ["comment1", "comment2", "comment4", "comment3", "comment5"]) :=
  ⟨⟨rfl, by decide⟩, ⟨rfl, by decide⟩⟩

/-- C2 (witness): the amended placement rule applied at the concrete test
state. -/
theorem insert_into_level_slot_spec_witness :
    (∀ c ∈ c2state.comments, 0 ≤ c.order)
    ∧ (((∃ c ∈ c2state.comments, c.parent = c2subj.parent ∧ c.order ≤ c2subj.order) →
        ∃ j cj, c2state.comments.get? j = some cj ∧ cj.parent = c2subj.parent ∧
          cj.order ≤ c2subj.order ∧
          (∀ k ck, c2state.comments.get? k = some ck → ck.parent = c2subj.parent →
            ck.order ≤ c2subj.order →
            ck.order < cj.order ∨ (ck.order = cj.order ∧ k ≤ j)) ∧
          Thread.insert_into_level c2state c2subj =
            ((j : ℤ),
             { c2state with comments :=
                c2state.comments.take j ++ c2subj :: c2state.comments.drop j }))
      ∧ ((¬ ∃ c ∈ c2state.comments, c.parent = c2subj.parent ∧ c.order ≤ c2subj.order) →
          (((∃ c ∈ c2state.comments, c.uid = c2subj.parent) ∧ c2subj.level ≠ 0) →
            ∃ p cp, c2state.comments.get? p = some cp ∧ cp.uid = c2subj.parent ∧
              (∀ q cq, c2state.comments.get? q = some cq → cq.uid = c2subj.parent → q ≤ p) ∧
              Thread.insert_into_level c2state c2subj =
                ((p : ℤ) + 1,
                 { c2state with
                    comments := c2state.comments.take (p + 1) ++ c2subj :: c2state.comments.drop (p + 1) }))
          ∧ (((¬ ∃ c ∈ c2state.comments, c.uid = c2subj.parent) ∨ c2subj.level = 0) →
              Thread.insert_into_level c2state c2subj =
                (-1,
                 { c2state with
                    comments := c2state.comments.take (c2state.comments.length - 1) ++ c2subj :: c2state.comments.drop (c2state.comments.length - 1) })))) :=
  ⟨by decide, Thread.insert_into_level_slot_spec c2state c2subj (by decide)⟩

/-- A parent `P` (level 0, order 0) followed by `add` of three children with
parent `P` and orders 2, 3, 1 in that insertion order; the run returns the
final linearization's identifiers. -/
def c1run : Except PyErr (List String) := do
  let (_, t1) ← Thread.add (initThread "s") 0 (some 0) "P" none
  let (_, t2) ← Thread.add t1 1 (some 2) "c2" (some "P")
  let (_, t3) ← Thread.add t2 1 (some 3) "c3" (some "P")
  let (_, t4) ← Thread.add t3 1 (some 1) "c1" (some "P")
  .ok (t4.comments.map PyComment.uid)

/-- C1 (amended): with children of `P` carrying orders 1, 2, 3 inserted in the
order 2, 3, 1, the final linearization is `[P, child(order=1),
child(order=3), child(order=2)]` — each new child either lands at the index
of its maximal lower-order sibling or, lacking one, right after `P`, so the
run is neither ascending nor descending. -/
theorem add_out_of_order_linearization :
    c1run = .ok ["P", "c1", "c3", "c2"] := rfl

/-- C1 (counterexample): the same run does not end in the claimed ascending
linearization `[P, child(order=1), child(order=2), child(order=3)]`. -/
theorem add_out_of_order_linearization_cex :
    c1run ≠ .ok ["P", "c1", "c2", "c3"] := by
  intro h
  have h0 : c1run = .ok ["P", "c1", "c3", "c2"] := rfl
  rw [h0] at h
  simp at h

/-- `insert_into_level` never changes `dummies` or `next`. -/
theorem insert_into_level_next (t : PyThread) (s : PyComment) :
    (Thread.insert_into_level t s).2.next = t.next ∧
    (Thread.insert_into_level t s).2.dummies = t.dummies := ⟨rfl, rfl⟩

/-- C4 (amended): for `add` calls that create no placeholder (here: no parent
supplied, uid not reserved), an explicit order bumps `next` to `order + 1`
only when `order` strictly exceeds `next` and otherwise leaves it unchanged —
in particular `order = next` does NOT advance it to `order + 1`, so the
update is not `max(next, order + 1)`; a call without an order assigns
`order = next` and then increments `next` by one. -/
theorem add_next_counter_spec (t : PyThread) (lvl : ℤ) (uid : String)
    (hu : uid ∉ t.dummies) :
    ((0 ≤ t.next) → ∃ c t', Thread.add t lvl none uid none = .ok (c, t') ∧
        c.order = t.next ∧ t'.next = t.next + 1)
    ∧ (∀ o : ℤ, ∃ c t', Thread.add t lvl (some o) uid none = .ok (c, t') ∧
        t'.next = (if t.next < o then o + 1 else t.next)) := by
  have hfuel : ∀ (u : PyThread), u.dummies.length + 2 = (u.dummies.length + 1) + 1 :=
    fun _ => rfl
  constructor
  · intro hnn
    refine ⟨mkComment lvl t.next uid none false,
      (Thread.insert_into_level { t with next := t.next + 1 }
        (mkComment lvl t.next uid none false)).2, ?_, ?_, ?_⟩
    · simp only [Thread.add, Thread.insert, hfuel, Thread.insertF]
      rw [if_neg (by simpa [mkComment] using hu)]
      rw [if_neg (by simp [mkComment])]
    · simp [mkComment, max_eq_left hnn]
    · exact (insert_into_level_next _ _).1
  · intro o
    by_cases ho : t.next < o
    · refine ⟨mkComment lvl o uid none false,
        (Thread.insert_into_level { t with next := o + 1 }
          (mkComment lvl o uid none false)).2, ?_, ?_⟩
      · simp only [Thread.add, if_pos ho, Thread.insert, hfuel, Thread.insertF]
        rw [if_neg (by simpa [mkComment] using hu)]
        rw [if_neg (by simp [mkComment])]
      · rw [(insert_into_level_next _ _).1, if_pos ho]
    · refine ⟨mkComment lvl o uid none false,
        (Thread.insert_into_level t (mkComment lvl o uid none false)).2, ?_, ?_⟩
      · simp only [Thread.add, if_neg ho, Thread.insert, hfuel, Thread.insertF]
        rw [if_neg (by simpa [mkComment] using hu)]
        rw [if_neg (by simp [mkComment])]
      · rw [(insert_into_level_next _ _).1, if_neg ho]

/-- C4 (counterexample): on a fresh thread (`next = 0`), `add` with explicit
order 0 leaves `next` at 0, whereas `max(next, order + 1)` would be 1. -/
theorem add_next_counter_cex :
    (Thread.add (initThread "s") 0 (some 0) "a" none).map (fun p => p.2.next) = .ok 0
    ∧ ¬ ((0 : ℤ) = max 0 (0 + 1)) := ⟨rfl, by decide⟩

/-- C4 (witness): the amended `next`-counter rule applied on a fresh thread. -/
theorem add_next_counter_spec_witness :
    ("a" ∉ (initThread "s").dummies)
    ∧ (((0 ≤ (initThread "s").next) →
          ∃ c t', Thread.add (initThread "s") 0 none "a" none = .ok (c, t') ∧
            c.order = (initThread "s").next ∧ t'.next = (initThread "s").next + 1)
        ∧ (∀ o : ℤ, ∃ c t', Thread.add (initThread "s") 0 (some o) "a" none = .ok (c, t') ∧
            t'.next = (if (initThread "s").next < o then o + 1 else (initThread "s").next))) :=
  ⟨by decide, add_next_counter_spec (initThread "s") 0 "a" (by decide)⟩

/-- C9: for every thread with at least one record, `save` yields one
tab-separated line per record in the current linear order (level, order,
identifier, parent with the empty string for none), ensures the slug's
comment directory is present, and afterwards `next` equals the number of
records written (one past the last zero-based loop index, independent of the
order values). -/
theorem save_spec (t : PyThread) (dirs : List String) (h : t.comments ≠ []) :
    (Thread.save t dirs).2 = .ok (t.comments.map Thread.lineOfComment,
        { t with next := (t.comments.length : ℤ) })
    ∧ t.slug ∈ (Thread.save t dirs).1 := by
  constructor
  · cases hc : t.comments with
    | nil => exact absurd hc h
    | cons a tl =>
        unfold Thread.save
        rw [hc]
  · cases hc : t.comments with
    | nil => exact absurd hc h
    | cons a tl =>
        unfold Thread.save
        rw [hc]
        dsimp only
        by_cases hs : t.slug ∈ dirs
        · rw [if_pos hs]; exact hs
        · rw [if_neg hs]; simp

/-- A one-record thread used to instantiate the `save` theorems. -/
def c9thread : PyThread :=
  { slug := "post", comments := [mkComment 0 5 "a" none false], dummies := [], next := 0 }

/-- C9 (witness): `save` on a concrete one-record thread. -/
theorem save_spec_witness :
    c9thread.comments ≠ []
    ∧ ((Thread.save c9thread []).2 = .ok (c9thread.comments.map Thread.lineOfComment,
          { c9thread with next := (c9thread.comments.length : ℤ) })
        ∧ c9thread.slug ∈ (Thread.save c9thread []).1) :=
  ⟨by decide, save_spec c9thread [] (by decide)⟩

/-- C10: `save` on a thread with zero records always fails (the post-loop
`self.next = index + 1` reads the never-bound loop variable, raising
`UnboundLocalError`, so no thread-log lines are produced), and it is total for
every thread with at least one record. -/
theorem save_empty_raises (t : PyThread) (dirs : List String) :
    (t.comments = [] → (Thread.save t dirs).2 = .error .unboundLocal)
    ∧ (t.comments ≠ [] → ∃ lines t', (Thread.save t dirs).2 = .ok (lines, t')) := by
  constructor
  · intro h
    unfold Thread.save
    rw [h]
  · intro h
    cases hc : t.comments with
    | nil => exact absurd hc h
    | cons a tl =>
        refine ⟨(a :: tl).map Thread.lineOfComment, { t with next := ((a :: tl).length : ℤ) }, ?_⟩
        unfold Thread.save
        rw [hc]
/-- C10 (witness): `save` on a concrete empty thread raises, and on a concrete
one-record thread succeeds. -/
theorem save_empty_raises_witness :
    ((initThread "post").comments = []
      ∧ (Thread.save (initThread "post") []).2 = .error .unboundLocal)
    ∧ (c9thread.comments ≠ []
      ∧ ∃ lines t', (Thread.save c9thread []).2 = .ok (lines, t')) :=
  ⟨⟨rfl, (save_empty_raises (initThread "post") []).1 rfl⟩,
   ⟨by decide, (save_empty_raises c9thread []).2 (by decide)⟩⟩

end Thread

/-- A successful pass through the `UIDMaker.__call__` loop returns a
candidate outside the known set and reserves exactly it (the known set is
never shrunk or otherwise changed on the way). -/
theorem uidCallGo_ok (cand : ℕ → String) (retry : Bool) (mr : ℕ) :
    ∀ (fuel tries : ℕ) (uids : Finset String) (uid : String) (uids' : Finset String),
      uidCallGo cand retry mr uids tries fuel = .ok (uid, uids') →
      uid ∉ uids ∧ uids' = insert uid uids := by
  intro fuel
  induction fuel with
  | zero => intro tries uids uid uids' h; simp [uidCallGo] at h
  | succ fuel ih =>
      intro tries uids uid uids' h
      rw [uidCallGo] at h
      by_cases hin : cand (tries + 1) ∈ uids
      · rw [if_pos hin] at h
        by_cases hr : retry = false
        · rw [if_pos hr] at h; simp at h
        · rw [if_neg hr] at h
          by_cases hmr : mr < tries + 1
          · rw [if_pos hmr] at h; simp at h
          · rw [if_neg hmr] at h
            exact ih (tries + 1) uids uid uids' h
      · rw [if_neg hin] at h
        injection h with h
        injection h with h1 h2
        subst h1
        subst h2
        exact ⟨hin, rfl⟩

/-- When every candidate up to the cap collides, the retrying loop fails with
the too-many-retries error on try `maxRetries + 1`. -/
theorem uidCallGo_collide (cand : ℕ → String) (mr : ℕ) (uids : Finset String)
    (hall : ∀ i, 0 < i → i ≤ mr + 1 → cand i ∈ uids) :
    ∀ (fuel tries : ℕ), tries ≤ mr → fuel = mr + 1 - tries →
      uidCallGo cand true mr uids tries fuel = .error (.tooManyRetries (mr + 1)) := by
  intro fuel
  induction fuel with
  | zero => intro tries htr hfe; omega
  | succ fuel ih =>
      intro tries htr hfe
      rw [uidCallGo]
      rw [if_pos (hall (tries + 1) (by omega) (by omega))]
      rw [if_neg (by simp : ¬ (true = false))]
      by_cases hmr : mr < tries + 1
      · rw [if_pos hmr]
        have : tries + 1 = mr + 1 := by omega
        rw [this]
      · rw [if_neg hmr]
        exact ih (tries + 1) (by omega) (by omega)

/-- C6: the identifier generator never returns an identifier already in its
known set and every successful call reserves exactly the returned identifier
(so `n` successful calls reserve exactly `n` new identifiers); with
`retry=False` the first colliding candidate fails with the "already exists"
error, and with `retry=True` all-colliding candidates fail with the "too many
retries" error on try `max_retries + 1` (11 for the default cap of 10). -/
theorem uidmaker_call_spec :
    (∀ (cand : ℕ → String) (uids : Finset String) (retry : Bool) (mr : ℕ)
        (uid : String) (uids' : Finset String),
      uidCall cand uids retry mr = .ok (uid, uids') →
      uid ∉ uids ∧ uids' = insert uid uids ∧ uids'.card = uids.card + 1)
    ∧ (∀ (cands : List (ℕ → String)) (uids : Finset String) (us : List String)
        (uids' : Finset String),
      uidCalls cands uids = .ok (us, uids') →
      uids'.card = uids.card + cands.length ∧ us.length = cands.length)
    ∧ (∀ (cand : ℕ → String) (uids : Finset String) (mr : ℕ),
      cand 1 ∈ uids → uidCall cand uids false mr = .error (.uidExists (cand 1)))
    ∧ (∀ (cand : ℕ → String) (uids : Finset String) (mr : ℕ),
      (∀ i, 0 < i → i ≤ mr + 1 → cand i ∈ uids) →
      uidCall cand uids true mr = .error (.tooManyRetries (mr + 1))) := by
  have part1 : ∀ (cand : ℕ → String) (uids : Finset String) (retry : Bool) (mr : ℕ)
      (uid : String) (uids' : Finset String),
      uidCall cand uids retry mr = .ok (uid, uids') →
      uid ∉ uids ∧ uids' = insert uid uids ∧ uids'.card = uids.card + 1 := by
    intro cand uids retry mr uid uids' h
    obtain ⟨h1, h2⟩ := uidCallGo_ok cand retry mr (mr + 1) 0 uids uid uids' h
    exact ⟨h1, h2, by rw [h2, Finset.card_insert_of_not_mem h1]⟩
  refine ⟨part1, ?_, ?_, ?_⟩
  · intro cands
    induction cands with
    | nil =>
        intro uids us uids' h
        rw [uidCalls] at h
        injection h with h
        injection h with h1 h2
        subst h1; subst h2
        simp
    | cons cand tl ih =>
        intro uids us uids' h
        rw [uidCalls] at h
        cases h1 : uidCall cand uids true 10 with
        | error e => rw [h1] at h; simp at h
        | ok p =>
            obtain ⟨u, uids1⟩ := p
            rw [h1] at h
            dsimp only at h
            cases h2 : uidCalls tl uids1 with
            | error e => rw [h2] at h; simp at h
            | ok q =>
                obtain ⟨us1, uids2⟩ := q
                rw [h2] at h
                dsimp only at h
                injection h with h
                injection h with h3 h4
                subst h3; subst h4
                obtain ⟨hc, _⟩ := ih uids1 us1 uids2 h2
                obtain ⟨_, _, hcard⟩ := part1 cand uids true 10 u uids1 h1
                constructor
                · rw [hc, hcard]
                  simp [List.length_cons]
                  omega
                · simp [(ih uids1 us1 uids2 h2).2]
  · intro cand uids mr hin
    rw [uidCall, uidCallGo]
    rw [if_pos hin, if_pos rfl]
  · intro cand uids mr hall
    exact uidCallGo_collide cand mr uids hall (mr + 1) 0 (by omega) (by omega)

/-- C6 (witness): the generator contract at concrete candidate streams and
known sets. -/
theorem uidmaker_call_spec_witness :
    ("x" ∉ (∅ : Finset String) ∧ insert "x" ∅ = insert "x" (∅ : Finset String)
      ∧ (insert "x" (∅ : Finset String)).card = (∅ : Finset String).card + 1)
    ∧ ((insert "b" (insert "a" ∅) : Finset String).card
        = (∅ : Finset String).card + ([fun _ => "a", fun _ => "b"] : List (ℕ → String)).length)
    ∧ (uidCall (fun _ => "c") {"c"} false 10 = .error (.uidExists "c"))
    ∧ (uidCall (fun _ => "c") {"c"} true 10 = .error (.tooManyRetries 11)) := by
  refine ⟨?_, ?_, ?_, ?_⟩
  · exact uidmaker_call_spec.1 (fun _ => "x") ∅ true 10 "x" (insert "x" ∅) rfl
  · exact (uidmaker_call_spec.2.1 [fun _ => "a", fun _ => "b"] ∅ ["a", "b"]
      (insert "b" (insert "a" ∅)) rfl).1
  · exact uidmaker_call_spec.2.2.1 (fun _ => "c") {"c"} 10 (by decide)
  · exact uidmaker_call_spec.2.2.2 (fun _ => "c") {"c"} 10 (fun i _ _ => Finset.mem_singleton_self "c")

/-- The metadata loop fails with the assertion error of the first colon-free
line whenever the blank-terminated leading block contains one. -/
theorem commentLoadGo_malformed :
    ∀ (lines : List String) (md : List (String × MetaVal)),
      (∃ l ∈ lines.takeWhile (fun s => pyStrip s != ""), l.data.contains ':' = false) →
      ∃ bad, commentLoadGo lines md = .error (.assertionError bad) ∧
        bad.data.contains ':' = false := by
  intro lines
  induction lines with
  | nil => intro md h; simp at h
  | cons line tl ih =>
      intro md h
      by_cases hb : pyStrip line = ""
      · rw [List.takeWhile_cons, if_neg (by simp [hb])] at h
        simp at h
      · rw [List.takeWhile_cons, if_pos (by simp [hb])] at h
        rw [commentLoadGo, if_neg hb]
        by_cases hc : line.data.contains ':' = true
        · have hok : parseMetadataLine line =
              .ok ((pyStrip ⟨(splitChar ':' line.data).headD []⟩),
                if (pyStrip ⟨(splitChar ':' line.data).headD []⟩) = "date"
                then .date (pyStrip ⟨joinChar ':' (splitChar ':' line.data).tail⟩)
                else .str (pyStrip ⟨joinChar ':' (splitChar ':' line.data).tail⟩)) := by
            unfold parseMetadataLine
            rw [if_pos hc]
          rw [hok]
          apply ih
          rcases h with ⟨l, hl, hlc⟩
          rcases List.mem_cons.mp hl with rfl | hl'
          · rw [hc] at hlc; simp at hlc
          · exact ⟨l, hl', hlc⟩
        · rw [Bool.not_eq_true] at hc
          have herr : parseMetadataLine line = .error (.assertionError line) := by
            unfold parseMetadataLine
            rw [if_neg (by rw [Bool.not_eq_true]; exact hc)]
          rw [herr]
          exact ⟨line, rfl, hc⟩

/-- C7 (amended): when the leading metadata block of a comment file contains
a non-blank line without a colon before the blank-line terminator, `load`
fails with the `AssertionError` regardless of `ignore_errors` — the
error-tolerant mode catches only the missing-file `IOError`, for which it
substitutes the `"[[deleted]]"` placeholder body. -/
theorem comment_load_malformed_spec :
    (∀ (lines : List String) (ie : Bool),
      (∃ l ∈ lines.takeWhile (fun s => pyStrip s != ""), l.data.contains ':' = false) →
      ∃ bad, commentLoad (some lines) ie = .error (.assertionError bad) ∧
        bad.data.contains ':' = false)
    ∧ commentLoad none true = .ok ([], "[[deleted]]")
    ∧ commentLoad none false = .error .ioError := by
  refine ⟨?_, rfl, rfl⟩
  intro lines ie h
  exact commentLoadGo_malformed lines [] h

/-- C7 (counterexample): with `ignore_errors=True` and a file whose single
metadata line has no colon, `load` still fails with the assertion error — no
placeholder is substituted, contrary to the claim. -/
theorem comment_load_malformed_cex :
    commentLoad (some ["nocolon"]) true = .error (.assertionError "nocolon")
    ∧ ∀ r : List (String × MetaVal) × String,
        commentLoad (some ["nocolon"]) true ≠ .ok r := by
  constructor
  · rfl
  · intro r h
    have h0 : commentLoad (some ["nocolon"]) true = .error (.assertionError "nocolon") := rfl
    rw [h0] at h
    simp at h

/-- C7 (witness): the amended load-failure rule at a concrete three-line
file, plus both missing-file behaviours. -/
theorem comment_load_malformed_spec_witness :
    (∃ l ∈ (["nocolon", "", "body"].takeWhile (fun s => pyStrip s != "")),
      l.data.contains ':' = false)
    ∧ (∃ bad, commentLoad (some ["nocolon", "", "body"]) false =
        .error (.assertionError bad) ∧ bad.data.contains ':' = false)
    ∧ commentLoad none true = .ok ([], "[[deleted]]")
    ∧ commentLoad none false = .error .ioError :=
  ⟨by decide,
   comment_load_malformed_spec.1 ["nocolon", "", "body"] false (by decide),
   comment_load_malformed_spec.2.1,
   comment_load_malformed_spec.2.2⟩

namespace Thread

/-- The inserted subject is always a member of `insert_into_level`'s
resulting record list. -/
theorem mem_pyInsert (l : List α) (i : ℤ) (x : α) : x ∈ pyInsert l i x := by
  unfold pyInsert pyInsertAt
  split <;> simp

/-- C8 (amended): for every insert whose subject is not a reserved
placeholder and whose `parent_identifier` matches an existing record, the
inserted record's level is rewritten to the found parent's level plus one —
whatever level the caller supplied — and the record enters the thread with
that level.  (The placeholder-replacement path can violate this when the
parent lookup happens after the subject's own placeholder subtree was spliced
out, e.g. a record naming itself as parent; see the counterexample.) -/
theorem insert_level_parent_spec (t : PyThread) (c : PyComment) (i : ℕ)
    (hu : c.uid ∉ t.dummies) (hp : c.parent ≠ "")
    (hf : t.comments.findIdx? (fun x => x.uid == c.parent) = some i) :
    ∃ loc t' pc, t.comments.get? i = some pc ∧
      Thread.insert t c = .ok (loc, { c with level := pc.level + 1 }, t') ∧
      { c with level := pc.level + 1 } ∈ t'.comments := by
  obtain ⟨pc, hget, hpc, _⟩ := findIdxQ_spec _ t.comments i hf
  refine ⟨(Thread.insert_into_level t { c with level := pc.level + 1 }).1,
    (Thread.insert_into_level t { c with level := pc.level + 1 }).2, pc, hget, ?_, ?_⟩
  · have hfuel : t.dummies.length + 2 = (t.dummies.length + 1) + 1 := rfl
    rw [Thread.insert, hfuel]
    rw [Thread.insertF]
    rw [if_neg hu, if_pos hp]
    unfold Thread.find
    rw [hf]
    dsimp only
    rw [hget]
    dsimp only [Option.getD]
  · exact mem_pyInsert _ _ _

end Thread

/-- A thread built by two `add` calls: a top-level record `A`, then a child
`C` naming the absent parent `X` — which synthesizes a placeholder record
with uid `X` at level 0. -/
def c8mid : Except PyErr PyThread := do
  let (_, t1) ← Thread.add (initThread "s") 0 (some 0) "A" none
  let (_, t2) ← Thread.add t1 1 (some 5) "C" (some "X")
  .ok t2

/-- The record returned by then adding a record with uid `X` whose
`parent_identifier` is also `X` — which matches the placeholder record
already in the thread. -/
def c8fin : Except PyErr PyComment := do
  let t2 ← c8mid
  let (c, _) ← Thread.add t2 9 (some 3) "X" (some "X")
  .ok c

/-- C8 (counterexample): before the offending insert the thread contains a
record with uid `X` at level 0 (the placeholder), so the claim demands the
inserted record end at level 1; the code returns it at the caller-derived
level 9. -/
theorem insert_level_parent_cex :
    c8mid.map (fun t => t.comments.map (fun x => (x.uid, x.level)))
        = .ok [("X", 0), ("C", 1), ("A", 0)]
    ∧ c8fin.map PyComment.level = .ok 9
    ∧ ((9 : ℤ) ≠ 0 + 1) := ⟨rfl, rfl, by decide⟩

/-- The subject for the C8 witness: caller-supplied level 5 under the level-0
record `comment1` of the concrete test state. -/
def c8subj : PyComment := mkComment 5 7 "k" (some "comment1") false

/-- C8 (witness): the amended level rule instantiated at the concrete test
state — the record enters at level 1 despite the supplied level 5. -/
theorem insert_level_parent_spec_witness :
    ("k" ∉ Thread.c2state.dummies ∧ c8subj.parent ≠ ""
      ∧ Thread.c2state.comments.findIdx? (fun x => x.uid == c8subj.parent) = some 0)
    ∧ (∃ loc t' pc, Thread.c2state.comments.get? 0 = some pc ∧
        Thread.insert Thread.c2state c8subj = .ok (loc, { c8subj with level := pc.level + 1 }, t') ∧
        { c8subj with level := pc.level + 1 } ∈ t'.comments) :=
  ⟨⟨by decide, by decide, rfl⟩,
   Thread.insert_level_parent_spec Thread.c2state c8subj 0 (by decide) (by decide) rfl⟩

namespace Thread

/-- The element directly after a known-length prefix. -/
theorem get?_append_cons (A : List α) (b : α) (B : List α) :
    (A ++ b :: B).get? A.length = some b := by
  induction A with
  | nil => rfl
  | cons a tl ih => simpa using ih

/-- Splitting a list at a successfully indexed element. -/
theorem eq_take_cons_drop (l : List α) (n : ℕ) (a : α) (h : l.get? n = some a) :
    l = l.take n ++ a :: l.drop (n + 1) := by
  induction l generalizing n with
  | nil => simp at h
  | cons x tl ih =>
      match n with
      | 0 =>
          simp only [List.get?_cons_zero, Option.some.injEq] at h
          subst h
          simp
      | n + 1 =>
          simp only [List.get?_cons_succ] at h
          simpa using ih (n := n) h

/-- The scan either leaves `location` alone or selects an index inside the
list. -/
theorem scanGo_loc_bound (s : PyComment) :
    ∀ (cs : List PyComment) (idx : ℕ) (st : ScanSt),
      (scanGo s cs idx st).loc = st.loc ∨
      ∃ j, j < cs.length ∧ (scanGo s cs idx st).loc = some (idx + j) := by
  intro cs
  induction cs with
  | nil => intro idx st; exact Or.inl rfl
  | cons c tl ih =>
      intro idx st
      rw [scanGo_cons]
      by_cases hb : (c.parent == s.parent && st.lar ≤ c.order && c.order ≤ s.order) = true
      · rw [hb]
        simp only [eq_self_iff_true, if_true]
        rcases ih (idx + 1) ⟨some idx, if c.uid == s.parent then some idx else st.ploc,
          if c.level == s.level then some idx else st.lend, c.order⟩ with h | ⟨j, hj, h⟩
        · exact Or.inr ⟨0, by simp, by rw [h]; simp⟩
        · exact Or.inr ⟨j + 1, by simp; omega, by rw [h]; congr 1; omega⟩
      · rw [Bool.not_eq_true] at hb
        rw [hb]
        simp only [if_neg Bool.false_ne_true]
        rcases ih (idx + 1) ⟨st.loc, if c.uid == s.parent then some idx else st.ploc,
          if c.level == s.level then some idx else st.lend, st.lar⟩ with h | ⟨j, hj, h⟩
        · exact Or.inl (by rw [h])
        · exact Or.inr ⟨j + 1, by simp; omega, by rw [h]; congr 1; omega⟩

/-- The freshly inserted element is readable back at its insertion index. -/
theorem get?_insertAt (x : α) :
    ∀ (l : List α) (n : ℕ), n ≤ l.length →
      (l.take n ++ x :: l.drop n).get? n = some x := by
  intro l
  induction l with
  | nil =>
      intro n hn
      match n with
      | 0 => rfl
  | cons a tl ih =>
      intro n hn
      match n with
      | 0 => rfl
      | n + 1 =>
          simp only [List.take_succ_cons, List.drop_succ_cons, List.cons_append,
            List.get?_cons_succ]
          exact ih n (by simpa using hn)

/-- Whenever `insert_into_level` reports a nonnegative location, the subject
sits exactly there in the resulting record list. -/
theorem insert_into_level_get (t : PyThread) (s : PyComment)
    (hp : 0 ≤ (Thread.insert_into_level t s).1) :
    (Thread.insert_into_level t s).2.comments.get?
      ((Thread.insert_into_level t s).1.toNat) = some s := by
  have hbound := scanGo_loc_bound s t.comments 0 ⟨none, none, none, 0⟩
  have hploc := scanGo_ploc s t.comments 0 ⟨none, none, none, 0⟩
  simp only [Thread.insert_into_level] at hp ⊢
  cases hlo : (scanGo s t.comments 0 ⟨none, none, none, 0⟩).loc with
  | some i =>
      rw [hlo] at hbound
      have hi : i < t.comments.length := by
        rcases hbound with h | ⟨j, hj, h⟩
        · simp at h
        · injection h with h; omega
      dsimp only
      simp only [pyInsert, if_neg (not_lt.mpr (Int.natCast_nonneg i)), Int.toNat_natCast,
        pyInsertAt]
      exact get?_insertAt s t.comments i (by omega)
  | none =>
      rw [hlo] at hp
      dsimp only at hp
      cases hpl : (scanGo s t.comments 0 ⟨none, none, none, 0⟩).ploc with
      | none =>
          rw [hpl] at hp
          dsimp only at hp
          omega
      | some p =>
          rw [hpl] at hp
          dsimp only at hp
          dsimp only
          by_cases hlev : s.level ≠ 0
          · rw [if_pos hlev] at hp ⊢
            have hple : p < t.comments.length := by
              rw [hploc] at hpl
              cases hfi : lastIdxOf (fun x => x.uid == s.parent) t.comments with
              | none => rw [hfi] at hpl; simp at hpl
              | some j =>
                  rw [hfi] at hpl
                  dsimp only at hpl
                  injection hpl with hpl
                  obtain ⟨a, hget, _, _⟩ := lastIdxOf_spec _ t.comments j hfi
                  obtain ⟨hjlt, _⟩ := List.get?_eq_some.mp hget
                  omega
            have htn : ((p : ℤ) + 1).toNat = p + 1 := by omega
            simp only [pyInsert, if_neg (by omega : ¬ ((p : ℤ) + 1 < 0)), htn, pyInsertAt]
            exact get?_insertAt s t.comments (p + 1) (by omega)
          · rw [if_neg hlev] at hp
            omega

/-- Elements survive a python-style insertion. -/
theorem mem_pyInsertAt_of_mem (l : List α) (n : ℕ) (x y : α) (h : y ∈ l) :
    y ∈ pyInsertAt l n x := by
  unfold pyInsertAt
  rw [← List.take_append_drop n l] at h
  rcases List.mem_append.mp h with h | h
  · exact List.mem_append.mpr (Or.inl h)
  · exact List.mem_append.mpr (Or.inr (List.mem_cons_of_mem _ h))

/-- Elements survive a python-style insertion (signed index). -/
theorem mem_pyInsert_of_mem (l : List α) (i : ℤ) (x y : α) (h : y ∈ l) :
    y ∈ pyInsert l i x := by
  unfold pyInsert
  split
  · exact mem_pyInsertAt_of_mem _ _ _ _ h
  · exact mem_pyInsertAt_of_mem _ _ _ _ h

/-- A python-style insertion at exactly the length of the first part of an
appended list lands between the parts. -/
theorem pyInsert_at_append (A B : List α) (x : α) (i : ℤ) (hi : 0 ≤ i)
    (hlen : i.toNat = A.length) : pyInsert (A ++ B) i x = A ++ x :: B := by
  simp only [pyInsert, if_neg (not_lt.mpr hi), pyInsertAt, hlen, List.take_left,
    List.drop_left]

/-- Re-inserting the gathered records in reverse, each one past a fixed
nonnegative location, splices them as a block at that point. -/
theorem foldl_pyInsert_splice (p : ℤ) (hp : 0 ≤ p) :
    ∀ (cs l : List α), (p + 1).toNat ≤ l.length →
      cs.reverse.foldl (fun acc ch => pyInsert acc (p + 1) ch) l =
        l.take (p + 1).toNat ++ cs ++ l.drop (p + 1).toNat := by
  intro cs
  induction cs with
  | nil => intro l _; simp
  | cons x cs' ih =>
      intro l hlen
      rw [List.reverse_cons, List.foldl_append, ih l hlen]
      dsimp only [List.foldl]
      have hlt : (List.take (p + 1).toNat l).length = (p + 1).toNat := by
        rw [List.length_take]; omega
      rw [List.append_assoc, pyInsert_at_append _ _ _ _ (by omega) hlt.symm]
      simp

end Thread

namespace Thread

/-- Reducing a bind on a successful `Except`. -/
theorem exbind_ok (a : α) (f : α → Except ε β) : (Except.ok a >>= f) = f a := rfl

/-- Reducing a bind on a failed `Except`. -/
theorem exbind_err (e : ε) (f : α → Except ε β) :
    ((Except.error e : Except ε α) >>= f) = .error e := rfl

/-- Once the `save` flag has flipped, the gathering loop funnels everything
into `temp`. -/
theorem partitionGo_false (dl : ℤ) :
    ∀ (l ch tmp : List PyComment), partitionGo dl l ch tmp false = (ch, tmp ++ l) := by
  intro l
  induction l with
  | nil => intro ch tmp; simp [partitionGo]
  | cons c tl ih =>
      intro ch tmp
      rw [partitionGo]
      by_cases hc : (c.level == dl) = true
      · rw [if_pos hc]
        simp only [if_neg Bool.false_ne_true]
        rw [ih]
        simp
      · rw [Bool.not_eq_true] at hc
        rw [hc]
        simp only [if_neg Bool.false_ne_true]
        rw [ih]
        simp

/-- The gathering loop of `replace_dummy` collects exactly the following
records up to (but not including) the first one at the dummy's own level;
everything from that record on (including records at shallower levels before
it) goes back to `temp`. -/
theorem partitionGo_spec (dl : ℤ) :
    ∀ (l ch tmp : List PyComment),
      partitionGo dl l ch tmp true =
        (ch ++ l.takeWhile (fun c => c.level != dl),
         tmp ++ l.dropWhile (fun c => c.level != dl)) := by
  intro l
  induction l with
  | nil => intro ch tmp; simp [partitionGo]
  | cons c tl ih =>
      intro ch tmp
      rw [partitionGo, List.takeWhile_cons, List.dropWhile_cons]
      by_cases hc : (c.level == dl) = true
      · have hne : (c.level != dl) = false := by simpa [bne] using hc
        rw [if_pos hc]
        simp only [if_neg Bool.false_ne_true]
        rw [partitionGo_false, hne]
        simp
      · rw [Bool.not_eq_true] at hc
        have hne : (c.level != dl) = true := by simp [bne, hc]
        rw [hc]
        simp only [if_neg Bool.false_ne_true]
        simp only [if_true]
        rw [ih, hne]
        simp

/-- Python `list.remove` of a present element is `List.erase`. -/
theorem pyRemoveFirst_erase (u : String) :
    ∀ (l : List String), u ∈ l →
      pyRemoveFirst (fun x => x == u) l = .ok (l.erase u) := by
  intro l
  induction l with
  | nil => intro h; exact absurd h (List.not_mem_nil u)
  | cons a tl ih =>
      intro h
      rw [pyRemoveFirst, List.erase_cons]
      by_cases ha : (a == u) = true
      · rw [if_pos ha, if_pos ha]
      · rw [if_neg ha, if_neg ha]
        have hmem : u ∈ tl := by
          rcases List.mem_cons.mp h with rfl | hm
          · exact absurd (by simp) ha
          · exact hm
        rw [ih hmem]
        rfl

/-- Whenever `insert` succeeds with a nonnegative location, the (possibly
level-rewritten) subject it returns sits exactly at that index of the
resulting record list. -/
theorem insertF_ok_get :
    ∀ (fuel : ℕ) (t : PyThread) (c : PyComment) (p : ℤ) (c' : PyComment) (t' : PyThread),
      insertF fuel t c = .ok (p, c', t') → 0 ≤ p →
      t'.comments.get? p.toNat = some c' := by
  intro fuel
  induction fuel with
  | zero => intro t c p c' t' h _; simp [insertF] at h
  | succ fuel ih =>
      intro t c p c' t' h hp
      rw [insertF] at h
      by_cases hd : c.uid ∈ t.dummies
      · rw [if_pos hd] at h
        rcases hF : find t c.uid c.level with ⟨⟨posOpt, dummy⟩, t1⟩
        rw [hF] at h
        dsimp only at h
        cases posOpt with
        | none => exact Except.noConfusion h
        | some loc =>
            dsimp only at h
            rcases hP : partitionGo dummy.level ((t1.comments.eraseIdx loc).drop loc) []
                ((t1.comments.eraseIdx loc).take loc) true with ⟨children, temp⟩
            rw [hP] at h
            dsimp only at h
            cases hrem : pyRemoveFirst (fun u => u == c.uid) t1.dummies with
            | error e =>
                rw [hrem, exbind_err] at h
                exact Except.noConfusion h
            | ok dummies1 =>
                rw [hrem, exbind_ok] at h
                cases hins : insertF fuel
                    { t1 with comments := temp, dummies := dummies1 } c with
                | error e =>
                    rw [hins, exbind_err] at h
                    exact Except.noConfusion h
                | ok r =>
                    obtain ⟨loc2, c'', t3⟩ := r
                    rw [hins, exbind_ok] at h
                    dsimp only at h
                    injection h with h
                    injection h with h1 h
                    injection h with h2 h3
                    subst h1
                    subst h2
                    subst h3
                    have hget := ih _ c _ _ _ hins hp
                    obtain ⟨hlt, _⟩ := List.get?_eq_some.mp hget
                    dsimp only
                    rw [foldl_pyInsert_splice _ hp _ t3.comments (by omega)]
                    rw [List.get?_append (by rw [List.length_append, List.length_take]; omega)]
                    rw [List.get?_append (by rw [List.length_take]; omega)]
                    rw [List.get?_take (by omega)]
                    exact hget
      · rw [if_neg hd] at h
        by_cases hpar : c.parent ≠ ""
        · rw [if_pos hpar] at h
          rcases hF : find t c.parent (c.level - 1) with ⟨⟨pos, parent⟩, t1⟩
          rw [hF] at h
          dsimp only at h
          cases pos with
          | some i =>
              dsimp only at h
              injection h with h
              injection h with h1 h
              injection h with h2 h3
              subst h1
              subst h2
              subst h3
              exact insert_into_level_get _ _ hp
          | none =>
              dsimp only at h
              injection h with h
              injection h with h1 h
              injection h with h2 h3
              subst h1
              subst h2
              subst h3
              exact insert_into_level_get _ _ hp
        · rw [if_neg hpar] at h
          dsimp only at h
          injection h with h
          injection h with h1 h
          injection h with h2 h3
          subst h1
          subst h2
          subst h3
          exact insert_into_level_get _ _ hp

/-- C3 (amended): (i) inserting a record whose parent is absent creates
exactly one placeholder — the parent's uid is appended to the reserved set, a
dummy record for it enters the thread, and the `next` counter funds its
order; (ii) a further child of the same (now present) placeholder creates no
new placeholder and leaves the reserved set unchanged; (iii) when the real
parent record is later inserted, the placeholder at index `loc` is removed,
the records gathered under it — the run of following records up to but NOT
including the next record at exactly the placeholder's level (records at
shallower levels are swept up too) — are re-attached contiguously and in
original relative order one past the real parent's insertion location, which
is immediately after the real parent whenever that location is nonnegative;
the subject's uid is removed from the reserved set before the re-insert. -/
theorem placeholder_lifecycle_spec :
    (∀ (t : PyThread) (c : PyComment), c.uid ∉ t.dummies → c.parent ≠ "" →
      t.comments.findIdx? (fun x => x.uid == c.parent) = none →
      ∃ loc t', Thread.insert t c =
          .ok (loc, { c with level := max (c.level - 1) 0 + 1 }, t') ∧
        t'.dummies = t.dummies ++ [c.parent] ∧ t'.next = t.next + 1 ∧
        ∃ d ∈ t'.comments, d.uid = c.parent ∧ d.isDummy = true)
    ∧ (∀ (t : PyThread) (c : PyComment) (i : ℕ), c.uid ∉ t.dummies → c.parent ≠ "" →
      t.comments.findIdx? (fun x => x.uid == c.parent) = some i →
      ∃ loc c' t', Thread.insert t c = .ok (loc, c', t') ∧
        t'.dummies = t.dummies ∧ t'.next = t.next)
    ∧ (∀ (t : PyThread) (c : PyComment) (loc : ℕ) (dummy : PyComment)
        (p : ℤ) (c' : PyComment) (t3 : PyThread),
      c.uid ∈ t.dummies →
      t.comments.findIdx? (fun x => x.uid == c.uid) = some loc →
      t.comments.get? loc = some dummy →
      Thread.insert
        { t with
          comments := (t.comments.eraseIdx loc).take loc ++
            ((t.comments.eraseIdx loc).drop loc).dropWhile
              (fun ch => ch.level != dummy.level),
          dummies := t.dummies.erase c.uid } c = .ok (p, c', t3) →
      0 ≤ p →
      ∃ t4 A B,
        Thread.replace_dummy t c = .ok (p, c', t4) ∧
        Thread.insert t c = .ok (p, c', t4) ∧
        t3.comments = A ++ c' :: B ∧ A.length = p.toNat ∧
        t4.comments = A ++ c' ::
          (((t.comments.eraseIdx loc).drop loc).takeWhile
            (fun ch => ch.level != dummy.level) ++ B) ∧
        t4.dummies = t3.dummies) := by
  refine ⟨?_, ?_, ?_⟩
  · intro t c hu hpar hmiss
    have hFind : find t c.parent (c.level - 1) =
        ((none, { mkComment (c.level - 1) 0 c.parent none true with order := t.next }),
         { t with next := t.next + 1, dummies := t.dummies ++ [c.parent] }) := by
      unfold find
      rw [hmiss]
    have hfuel : t.dummies.length + 2 = (t.dummies.length + 1) + 1 := rfl
    rw [Thread.insert, hfuel, Thread.insertF, if_neg hu, if_pos hpar, hFind]
    dsimp only
    refine ⟨_, _, rfl, ?_, ?_, ?_⟩
    · exact (insert_into_level_next _ _).2.trans ((insert_into_level_next _ _).2.trans rfl)
    · exact (insert_into_level_next _ _).1.trans ((insert_into_level_next _ _).1.trans rfl)
    · refine ⟨{ mkComment (c.level - 1) 0 c.parent none true with order := t.next },
        ?_, rfl, rfl⟩
      apply mem_pyInsert_of_mem
      apply mem_pyInsert
  · intro t c i hu hpar hf
    obtain ⟨pc, hget, _, _⟩ := findIdxQ_spec _ t.comments i hf
    have hFind : find t c.parent (c.level - 1) =
        ((some i, pc), t) := by
      unfold find
      rw [hf]
      dsimp only
      rw [hget]
      rfl
    have hfuel : t.dummies.length + 2 = (t.dummies.length + 1) + 1 := rfl
    rw [Thread.insert, hfuel, Thread.insertF, if_neg hu, if_pos hpar, hFind]
    dsimp only
    exact ⟨_, _, _, rfl, (insert_into_level_next _ _).2, (insert_into_level_next _ _).1⟩
  · intro t c loc dummy p c' t3 hm hf hgd hi hp
    have hFind : find t c.uid c.level = ((some loc, dummy), t) := by
      unfold find
      rw [hf]
      dsimp only
      rw [hgd]
      rfl
    have hlen1 : 0 < t.dummies.length := List.length_pos.mpr (List.ne_nil_of_mem hm)
    have hfuel2 : (t.dummies.erase c.uid).length + 2 = t.dummies.length + 1 := by
      rw [List.length_erase_of_mem hm]
      omega
    rw [Thread.insert] at hi
    rw [hfuel2] at hi
    have hmain : Thread.replace_dummy t c =
        .ok (p, c',
          { t3 with comments :=
            (List.foldl (fun l ch => pyInsert l (p + 1) ch) t3.comments
              ((((t.comments.eraseIdx loc).drop loc).takeWhile (fun ch => ch.level != dummy.level)).reverse)) }) := by
      rw [Thread.replace_dummy, replaceF, hFind]
      dsimp only
      rw [partitionGo_spec]
      dsimp only
      rw [pyRemoveFirst_erase _ _ hm, exbind_ok]
      simp only [List.nil_append]
      rw [hi, exbind_ok]
    have hget := insertF_ok_get _ _ _ _ _ _ hi hp
    obtain ⟨hlt, _⟩ := List.get?_eq_some.mp hget
    have hsplit := eq_take_cons_drop t3.comments p.toNat c' hget
    refine ⟨_, t3.comments.take p.toNat, t3.comments.drop (p.toNat + 1),
      hmain, ?_, hsplit, ?_, ?_, rfl⟩
    · have hfuel : t.dummies.length + 2 = (t.dummies.length + 1) + 1 := rfl
      rw [Thread.insert, hfuel, insertF_dummy _ _ _ hm]
      exact hmain
    · rw [List.length_take]
      omega
    · dsimp only
      rw [foldl_pyInsert_splice _ hp _ t3.comments (by omega)]
      have htake : t3.comments.take (p + 1).toNat =
          t3.comments.take p.toNat ++ [c'] := by
        have h1 : (p + 1).toNat = p.toNat + 1 := by omega
        rw [h1, List.take_succ, ← List.get?_eq_getElem?, hget]
        rfl
      have hdrop : t3.comments.drop (p + 1).toNat =
          t3.comments.drop (p.toNat + 1) := by
        congr 1
        omega
      rw [htake, hdrop]
      simp

end Thread

/-- Three `add` calls: top-level `A`; a child `C` of the absent parent `X`
(creating the placeholder for `X`); then the real `X`.  The run returns the
final linearization's uids and the reserved placeholder set. -/
def c3run : Except PyErr (List String × List String) := do
  let (_, t1) ← Thread.add (initThread "s") 0 (some 0) "A" none
  let (_, t2) ← Thread.add t1 2 (some 5) "C" (some "X")
  let (_, t3) ← Thread.add t2 0 (some 10) "X" none
  .ok (t3.comments.map PyComment.uid, t3.dummies)

/-- C3 (counterexample): when the real parent `X` arrives, the placeholder's
gathered records (`C`, and the swept-up shallower `A`) are re-inserted at one
past the parent's raw insertion location, which here is the sentinel `-1` —
so they end up BEFORE the real parent: `[C, A, X]`, not the claimed
re-attachment immediately after it (`[X, C, A]`).  The reserved set is
emptied as claimed. -/
theorem placeholder_lifecycle_cex :
    c3run = .ok (["C", "A", "X"], [])
    ∧ (["C", "A", "X"] : List String) ≠ ["X", "C", "A"] := ⟨rfl, by decide⟩

/-- The thread state of the repository's `test_replace_dummy`: a placeholder
`comment10` with three records under it, then `comment1`'s subtree and
`comment3`. -/
def rdThread : PyThread :=
  { slug := "test-99",
    comments := [mkComment 0 0 "comment10" none true,
                 mkComment 1 1 "comment4" (some "comment10") false,
                 mkComment 1 0 "comment5" (some "comment10") false,
                 mkComment 2 0 "comment6" (some "comment5") false,
                 mkComment 0 200 "comment1" none false,
                 mkComment 1 0 "comment2" (some "comment1") false,
                 mkComment 0 100 "comment3" none false],
    dummies := ["comment10"], next := 0 }

/-- The real `comment10` that replaces the placeholder. -/
def rdReal : PyComment := mkComment 0 150 "comment10" none false

/-- The placeholder record itself. -/
def rdDummy : PyComment := mkComment 0 0 "comment10" none true

/-- The thread state handed to the inner re-insert: placeholder and its
gathered run spliced out, uid released. -/
def rdInner : PyThread :=
  { rdThread with
    comments := ((rdThread.comments.eraseIdx 0).take 0 ++
      ((rdThread.comments.eraseIdx 0).drop 0).dropWhile
        (fun ch => ch.level != rdDummy.level)),
    dummies := rdThread.dummies.erase "comment10" }

/-- The result of that inner re-insert. -/
def rdT3 : PyThread :=
  { slug := "test-99",
    comments := [mkComment 0 200 "comment1" none false,
                 mkComment 1 0 "comment2" (some "comment1") false,
                 rdReal,
                 mkComment 0 100 "comment3" none false],
    dummies := [], next := 0 }

/-- C3 (witness): the amended placeholder-replacement rule at the repository
test's own state (the final list is `[comment1, comment2, comment10,
comment4, comment5, comment6, comment3]`, as the test expects). -/
theorem placeholder_lifecycle_spec_witness :
    ("comment10" ∈ rdThread.dummies
      ∧ rdThread.comments.findIdx? (fun x => x.uid == rdReal.uid) = some 0
      ∧ rdThread.comments.get? 0 = some rdDummy
      ∧ Thread.insert rdInner rdReal = .ok (2, rdReal, rdT3)
      ∧ (0 : ℤ) ≤ 2)
    ∧ (∃ t4 A B,
        Thread.replace_dummy rdThread rdReal = .ok (2, rdReal, t4) ∧
        Thread.insert rdThread rdReal = .ok (2, rdReal, t4) ∧
        rdT3.comments = A ++ rdReal :: B ∧ A.length = (2 : ℤ).toNat ∧
        t4.comments = A ++ rdReal ::
          (((rdThread.comments.eraseIdx 0).drop 0).takeWhile
            (fun ch => ch.level != rdDummy.level) ++ B) ∧
        t4.dummies = rdT3.dummies) :=
  ⟨⟨by decide, rfl, rfl, rfl, by decide⟩,
   Thread.placeholder_lifecycle_spec.2.2 rdThread rdReal 0 rdDummy 2 rdReal rdT3
     (by decide) rfl rfl rfl (by decide)⟩

/-- A reply chain: each entry's parent is the previous entry's uid. -/
def Linked : String → List Entry → Prop
  | _, [] => True
  | par, e :: rest => e.parent = some par ∧ Linked e.uid rest

/-- Deciding `Linked` by walking the list. -/
def decLinked : (par : String) → (es : List Entry) → Decidable (Linked par es)
  | _, [] => isTrue trivial
  | par, e :: rest => by
      haveI := decLinked e.uid rest
      exact inferInstanceAs (Decidable (e.parent = some par ∧ Linked e.uid rest))

attribute [instance] decLinked

/-- A thread-log that forms one reply chain: a top-level head, every further
record replying to the one before it, all uids distinct and nonempty. -/
def ChainEntries : List Entry → Prop
  | [] => False
  | e :: rest =>
      (e.parent = none ∨ e.parent = some "") ∧ Linked e.uid rest ∧
      ((e :: rest).map Entry.uid).Nodup ∧ ∀ x ∈ e :: rest, x.uid ≠ ""

/-- Deciding `ChainEntries`. -/
def decChainEntries : (es : List Entry) → Decidable (ChainEntries es)
  | [] => isFalse (fun h => h)
  | e :: rest => by
      exact inferInstanceAs (Decidable ((e.parent = none ∨ e.parent = some "") ∧
        Linked e.uid rest ∧ ((e :: rest).map Entry.uid).Nodup ∧ ∀ x ∈ e :: rest, x.uid ≠ ""))

attribute [instance] decChainEntries

/-- The linearization a reply chain replays to: one record per entry, levels
increasing from the head's clamped level, orders clamped, each record's
parent the previous entry's uid. -/
def chainComments : ℤ → String → List Entry → List PyComment
  | _, _, [] => []
  | lvl, par, e :: rest =>
      { uid := e.uid, level := lvl, order := max e.order 0, parent := par,
        isDummy := false } :: chainComments (lvl + 1) e.uid rest

namespace Thread

/-- Inserting a parentless record into an empty thread: the scan finds
nothing, `insert(-1, ...)` makes it the sole record. -/
theorem insert_empty (t : PyThread) (c : PyComment) (hc : t.comments = [])
    (hpar : c.parent = "") (hd : t.dummies = []) :
    Thread.insert t c = .ok (-1, c, { t with comments := [c] }) := by
  have hfuel : t.dummies.length + 2 = (t.dummies.length + 1) + 1 := rfl
  rw [Thread.insert, hfuel, Thread.insertF, if_neg (by simp [hd]), if_neg (by simp [hpar])]
  unfold Thread.insert_into_level
  rw [hc]
  rfl

/-- Appending a reply to the current end of a chain-shaped thread: the
subject's parent is the last record, no sibling candidates exist, so the
subject lands at the very end with the parent-derived level. -/
theorem chain_insert_step (t : PyThread) (c : PyComment) (cs : List PyComment)
    (cl : PyComment) (hc : t.comments = cs ++ [cl]) (hd : t.dummies = [])
    (hpar : c.parent = cl.uid) (hne : cl.uid ≠ "")
    (hfirst : ∀ x ∈ cs, x.uid ≠ cl.uid)
    (hnopar : ∀ x ∈ cs ++ [cl], x.parent ≠ cl.uid)
    (hlev : 0 ≤ cl.level) :
    Thread.insert t c = .ok ((cs.length : ℤ) + 1, { c with level := cl.level + 1 },
      { t with comments := (cs ++ [cl]) ++ [{ c with level := cl.level + 1 }] }) := by
  have hfuel : t.dummies.length + 2 = (t.dummies.length + 1) + 1 := rfl
  have hfi : t.comments.findIdx? (fun x => x.uid == c.parent) = some cs.length := by
    rw [hc]
    apply findIdxQ_append
    · intro a ha
      simp [hpar]
      exact hfirst a ha
    · simp [hpar]
  have hget : t.comments.get? cs.length = some cl := by
    rw [hc]
    exact get?_append_cons cs cl []
  have hFind : find t c.parent (c.level - 1) = ((some cs.length, cl), t) := by
    unfold find
    rw [hfi]
    dsimp only
    rw [hget]
    rfl
  rw [Thread.insert, hfuel, Thread.insertF, if_neg (by simp [hd]),
    if_pos (by rw [hpar]; exact hne), hFind]
  dsimp only
  have hiil : Thread.insert_into_level t { c with level := cl.level + 1 } =
      ((cs.length : ℤ) + 1,
       { t with comments := (cs ++ [cl]) ++ [{ c with level := cl.level + 1 }] }) := by
    have hnoelig := scanGo_loc_none { c with level := cl.level + 1 } t.comments 0
      ⟨none, none, none, 0⟩ (by
        intro x hx he
        exact hnopar x (by rw [← hc]; exact hx) (by rw [← hpar]; exact he.1))
    have hploc := scanGo_ploc { c with level := cl.level + 1 } t.comments 0
      ⟨none, none, none, 0⟩
    have hlast : lastIdxOf (fun x => x.uid == { c with level := cl.level + 1 }.parent)
        t.comments = some cs.length := by
      rw [hc]
      apply lastIdxOf_append
      simp [hpar]
    rw [hlast] at hploc
    dsimp only at hploc
    rw [Nat.zero_add] at hploc
    simp only [Thread.insert_into_level]
    rw [hnoelig.1, hploc]
    dsimp only
    rw [if_pos (show cl.level + 1 ≠ 0 by omega)]
    have hinsert : pyInsert t.comments ((cs.length : ℤ) + 1)
        { c with level := cl.level + 1 } =
        (cs ++ [cl]) ++ [{ c with level := cl.level + 1 }] := by
      have hlen : t.comments.length = cs.length + 1 := by
        rw [hc]
        simp
      simp only [pyInsert, if_neg (by omega : ¬ ((cs.length : ℤ) + 1 < 0)), pyInsertAt]
      have h1 : ((cs.length : ℤ) + 1).toNat = t.comments.length := by
        rw [hlen]
        omega
      rw [h1, List.take_length, List.drop_length, hc]
    rw [hinsert]
  rw [hiil]

/-- Replaying the tail of a reply chain appends one record per entry at the
end of the thread. -/
theorem chain_replay_aux :
    ∀ (rest : List Entry) (t : PyThread) (cs : List PyComment) (cl : PyComment),
      t.comments = cs ++ [cl] →
      t.dummies = [] →
      0 ≤ t.next →
      cl.uid ≠ "" →
      (∀ x ∈ cs, x.uid ≠ cl.uid) →
      (∀ x ∈ cs ++ [cl], 0 ≤ x.level) →
      (∀ x ∈ cs ++ [cl], x.parent ≠ cl.uid ∧ ∀ e ∈ rest, x.parent ≠ e.uid) →
      Linked cl.uid rest →
      (rest.map Entry.uid).Nodup →
      (∀ e ∈ rest, (∀ x ∈ cs ++ [cl], e.uid ≠ x.uid) ∧ e.uid ≠ "") →
      ∃ t', Thread.replayFrom t rest = .ok t' ∧
        t'.comments = (cs ++ [cl]) ++ chainComments (cl.level + 1) cl.uid rest ∧
        t'.dummies = [] ∧ 0 ≤ t'.next := by
  intro rest
  induction rest with
  | nil =>
      intro t cs cl hc hd hn _ _ _ _ _ _ _
      refine ⟨t, rfl, ?_, hd, hn⟩
      rw [hc]
      simp [chainComments]
  | cons e rest' ih =>
      intro t cs cl hc hd hn hclne hfirst hlevs hnopar hlink hnodup hfresh
      obtain ⟨hepar, hlink'⟩ := hlink
      have hcomm : { mkComment e.level e.order e.uid e.parent false with
          level := cl.level + 1 } =
          { uid := e.uid, level := cl.level + 1, order := max e.order 0,
            parent := cl.uid, isDummy := false } := by
        simp [mkComment, hepar]
      have hstep : ∀ (u : PyThread), u.comments = cs ++ [cl] → u.dummies = [] →
          Thread.insert u (mkComment e.level e.order e.uid e.parent false) =
            .ok ((cs.length : ℤ) + 1,
              { uid := e.uid, level := cl.level + 1, order := max e.order 0,
                parent := cl.uid, isDummy := false },
              { u with comments := (cs ++ [cl]) ++
                [{ uid := e.uid, level := cl.level + 1, order := max e.order 0,
                   parent := cl.uid, isDummy := false }] }) := by
        intro u huc hud
        have h1 := chain_insert_step u (mkComment e.level e.order e.uid e.parent false)
          cs cl huc hud (by simp [mkComment, hepar]) hclne hfirst
          (fun x hx => (hnopar x hx).1) (hlevs cl (by simp))
        rw [hcomm] at h1
        exact h1
      -- invariant transfer to the grown thread
      have huid_ne : e.uid ≠ cl.uid := (hfresh e (by simp)).1 cl (by simp)
      have hih : ∀ (u : PyThread),
          u.comments = (cs ++ [cl]) ++
            [{ uid := e.uid, level := cl.level + 1, order := max e.order 0,
               parent := cl.uid, isDummy := false }] →
          u.dummies = [] → 0 ≤ u.next →
          ∃ t', Thread.replayFrom u rest' = .ok t' ∧
            t'.comments = (cs ++ [cl]) ++
              chainComments (cl.level + 1) cl.uid (e :: rest') ∧
            t'.dummies = [] ∧ 0 ≤ t'.next := by
        intro u huc hud hun
        obtain ⟨t', h1, h2, h3, h4⟩ := ih u (cs ++ [cl])
          { uid := e.uid, level := cl.level + 1, order := max e.order 0,
            parent := cl.uid, isDummy := false }
          huc hud hun
          (by exact (hfresh e (by simp)).2)
          (by
            intro x hx
            exact ((hfresh e (by simp)).1 x hx).symm)
          (by
            intro x hx
            rcases List.mem_append.mp hx with hx' | hx'
            · exact hlevs x hx'
            · simp at hx'
              subst hx'
              have := hlevs cl (by simp)
              dsimp only
              omega)
          (by
            intro x hx
            rcases List.mem_append.mp hx with hx' | hx'
            · constructor
              · exact (hnopar x hx').2 e (by simp)
              · intro e' he'
                exact (hnopar x hx').2 e' (by simp [he'])
            · simp at hx'
              subst hx'
              dsimp only
              constructor
              · exact fun hcon => (hfresh e (by simp)).1 cl (by simp) hcon.symm
              · intro e' he'
                exact fun hcon => (hfresh e' (by simp [he'])).1 cl (by simp) hcon.symm)
          hlink'
          (by
            have := hnodup
            simp only [List.map_cons] at this
            exact this.of_cons)
          (by
            intro e' he'
            constructor
            · intro x hx
              rcases List.mem_append.mp hx with hx' | hx'
              · exact (hfresh e' (by simp [he'])).1 x hx'
              · simp at hx'
                subst hx'
                dsimp only
                have hnd := hnodup
                simp only [List.map_cons, List.nodup_cons] at hnd
                intro hcon
                exact hnd.1 (by rw [← hcon]; exact List.mem_map_of_mem _ he')
            · exact (hfresh e' (by simp [he'])).2)
        refine ⟨t', h1, ?_, h3, h4⟩
        rw [h2]
        simp [chainComments, List.append_assoc]
      by_cases ho : t.next < e.order
      · have hadd : Thread.add t e.level (some e.order) e.uid e.parent =
            .ok ({ uid := e.uid, level := cl.level + 1, order := max e.order 0,
                   parent := cl.uid, isDummy := false },
              { t with next := e.order + 1, comments := (cs ++ [cl]) ++
                [{ uid := e.uid, level := cl.level + 1, order := max e.order 0,
                   parent := cl.uid, isDummy := false }] }) := by
          simp only [Thread.add]
          rw [if_pos ho]
          rw [hstep { t with next := e.order + 1 } (by simpa using hc) (by simpa using hd)]
        rw [Thread.replayFrom, List.foldlM_cons, hadd, exbind_ok]
        dsimp only
        exact hih _ rfl (by simpa using hd) (by dsimp only; omega)
      · have hadd : Thread.add t e.level (some e.order) e.uid e.parent =
            .ok ({ uid := e.uid, level := cl.level + 1, order := max e.order 0,
                   parent := cl.uid, isDummy := false },
              { t with comments := (cs ++ [cl]) ++
                [{ uid := e.uid, level := cl.level + 1, order := max e.order 0,
                   parent := cl.uid, isDummy := false }] }) := by
          simp only [Thread.add]
          rw [if_neg ho]
          rw [hstep t hc hd]
        rw [Thread.replayFrom, List.foldlM_cons, hadd, exbind_ok]
        dsimp only
        exact hih _ rfl (by simpa using hd) (by dsimp only; omega)

/-- Replaying a whole reply chain from an empty thread produces exactly the
chain linearization. -/
theorem replay_chain (e0 : Entry) (rest : List Entry)
    (h : ChainEntries (e0 :: rest)) :
    ∃ t, Thread.replayEntries (e0 :: rest) = .ok t ∧
      t.comments = chainComments (max e0.level 0) "" (e0 :: rest) ∧
      t.dummies = [] ∧ 0 ≤ t.next := by
  obtain ⟨hp0, hlink, hnd, hne⟩ := h
  have hpar0 : (mkComment e0.level e0.order e0.uid e0.parent false).parent = "" := by
    rcases hp0 with h | h <;> simp [mkComment, h]
  have hc0uid : (mkComment e0.level e0.order e0.uid e0.parent false).uid = e0.uid := rfl
  have hne0 : e0.uid ≠ "" := hne e0 (by simp)
  have hndrest : (rest.map Entry.uid).Nodup := by
    simp only [List.map_cons, List.nodup_cons] at hnd
    exact hnd.2
  have hhead : e0.uid ∉ rest.map Entry.uid := by
    simp only [List.map_cons, List.nodup_cons] at hnd
    exact hnd.1
  have hu : (initThread "slug").comments = [] := rfl
  have hud : (initThread "slug").dummies = [] := rfl
  have hadd : ∃ w, Thread.add (initThread "slug") e0.level (some e0.order) e0.uid e0.parent =
      .ok (mkComment e0.level e0.order e0.uid e0.parent false, w) ∧
      w.comments = [mkComment e0.level e0.order e0.uid e0.parent false] ∧
      w.dummies = [] ∧ 0 ≤ w.next := by
    have h0 : (initThread "slug").next = (0 : ℤ) := rfl
    by_cases ho : (initThread "slug").next < e0.order
    · refine ⟨{ initThread "slug" with next := e0.order + 1, comments := [mkComment e0.level e0.order e0.uid e0.parent false] }, ?_, rfl, rfl, by dsimp only; omega⟩
      simp only [Thread.add]
      rw [if_pos ho, Thread.insert_empty { initThread "slug" with next := e0.order + 1 }
        _ rfl hpar0 rfl]
    · refine ⟨{ initThread "slug" with comments := [mkComment e0.level e0.order e0.uid e0.parent false] }, ?_, rfl, rfl, by dsimp only; omega⟩
      simp only [Thread.add]
      rw [if_neg ho, Thread.insert_empty (initThread "slug") _ rfl hpar0 rfl]
  obtain ⟨w, hw, hwc, hwd, hwn⟩ := hadd
  have haux := chain_replay_aux rest w []
    (mkComment e0.level e0.order e0.uid e0.parent false)
    (by rw [hwc]; rfl) hwd hwn
    (by rw [hc0uid]; exact hne0)
    (by intro x hx; simp at hx)
    (by
      intro x hx
      simp at hx
      subst hx
      simp [mkComment])
    (by
      intro x hx
      simp at hx
      subst hx
      rw [hpar0]
      exact ⟨fun hcon => hne0 hcon.symm,
        fun e hemem hcon => (hne e (by simp [hemem])) hcon.symm⟩)
    (by rw [hc0uid]; exact hlink)
    hndrest
    (by
      intro e hemem
      constructor
      · intro x hx
        simp at hx
        subst hx
        rw [hc0uid]
        intro hcon
        exact hhead (by rw [← hcon]; exact List.mem_map_of_mem _ hemem)
      · exact hne e (by simp [hemem]))
  obtain ⟨t', h1, h2, h3, h4⟩ := haux
  refine ⟨t', ?_, ?_, h3, h4⟩
  · rw [Thread.replayEntries, Thread.replayFrom, List.foldlM_cons, hw, exbind_ok]
    dsimp only
    exact h1
  · rw [h2]
    have hl : (mkComment e0.level e0.order e0.uid e0.parent false).level =
        max e0.level 0 := rfl
    simp only [List.nil_append, hl, hc0uid]
    rcases hp0 with hp | hp <;> simp [mkComment, hp, chainComments]

end Thread

/-- Re-linearizing the serialized form of a chain linearization gives the same
records: `chainComments` only consults the `uid` and (already clamped) `order`
fields of the entries. -/
theorem chainComments_saved (es : List Entry) : ∀ (lvl : ℤ) (par : String)
    (lvl2 : ℤ) (par2 : String),
    chainComments lvl2 par2 ((chainComments lvl par es).map Thread.entryOfComment) =
      chainComments lvl2 par2 es := by
  induction es with
  | nil => intro _ _ _ _; rfl
  | cons e rest ih =>
      intro lvl par lvl2 par2
      simp only [chainComments, List.map_cons, Thread.entryOfComment]
      rw [max_eq_left (le_max_right e.order 0), ih]

/-- Serializing a chain linearization preserves the entry uids. -/
theorem chainComments_saved_uids (es : List Entry) : ∀ (lvl : ℤ) (par : String),
    (((chainComments lvl par es).map Thread.entryOfComment).map Entry.uid) =
      es.map Entry.uid := by
  induction es with
  | nil => intro _ _; rfl
  | cons e rest ih =>
      intro lvl par
      simp only [chainComments, List.map_cons, Thread.entryOfComment]
      rw [ih]

/-- The serialized form of a chain linearization is itself linked: each saved
record names the previous record's uid as its parent. -/
theorem chainComments_saved_linked (es : List Entry) : ∀ (lvl : ℤ) (par : String),
    Linked par ((chainComments lvl par es).map Thread.entryOfComment) := by
  induction es with
  | nil => intro _ _; trivial
  | cons e rest ih =>
      intro lvl par
      simp only [chainComments, List.map_cons, Thread.entryOfComment]
      exact ⟨rfl, ih (lvl + 1) e.uid⟩

/-- The serialized form of a reply chain's linearization is again a reply
chain. -/
theorem chain_entries_saved (e0 : Entry) (rest : List Entry)
    (h : ChainEntries (e0 :: rest)) (lvl : ℤ) :
    ChainEntries ((chainComments lvl "" (e0 :: rest)).map Thread.entryOfComment) := by
  obtain ⟨hp0, hlink, hnd, hne⟩ := h
  simp only [chainComments, List.map_cons]
  refine ⟨Or.inr rfl, chainComments_saved_linked rest (lvl + 1) e0.uid, ?_, ?_⟩
  · have huids : ((chainComments lvl "" (e0 :: rest)).map Thread.entryOfComment).map
        Entry.uid = (e0 :: rest).map Entry.uid := chainComments_saved_uids (e0 :: rest) lvl ""
    simp only [chainComments, List.map_cons] at huids
    simp only [List.map_cons]
    rw [huids]
    exact hnd
  · intro x hx
    have hxu : x.uid ∈ (Thread.entryOfComment { uid := e0.uid, level := lvl, order := max e0.order 0, parent := "", isDummy := false } :: (chainComments (lvl + 1) e0.uid rest).map Thread.entryOfComment).map Entry.uid :=
      List.mem_map_of_mem _ hx
    have huids : ((chainComments lvl "" (e0 :: rest)).map Thread.entryOfComment).map
        Entry.uid = (e0 :: rest).map Entry.uid := chainComments_saved_uids (e0 :: rest) lvl ""
    simp only [chainComments, List.map_cons] at huids
    simp only [List.map_cons] at hxu
    rw [huids] at hxu
    rw [show (e0.uid :: List.map Entry.uid rest) = (e0 :: rest).map Entry.uid from rfl] at hxu
    obtain ⟨y, hy, hyx⟩ := List.mem_map.mp hxu
    rw [← hyx]
    exact hne y hy

/-- The thread-log of claim C5's counterexample: four well-formed lines whose
textual order differs from the linear order `load` produces. -/
def c5lines : List String :=
  ["0\t0\tP\t", "1\t2\tc2\tP", "1\t3\tc3\tP", "1\t1\tc1\tP"]

/-- First `load` of the counterexample log. -/
def c5first : Except PyErr PyThread := Thread.load (initThread "s") c5lines

/-- `save` the loaded thread, then `load` the serialized file again. -/
def c5second : Except PyErr PyThread :=
  c5first.bind fun t => ((Thread.save t []).2).bind fun p => Thread.load p.2 p.1

/-- C5 counterexample: a thread-log whose lines all parse, yet loading it,
saving, and loading the saved file again changes the linearization — the
first load places the records `P, c1, c3, c2`, the reload of the serialized
file places them `P, c3, c2, c1`.  One load/save round trip is not a fixed
point of the linearization. -/
theorem replay_roundtrip_cex :
    c5first.map (fun t => t.comments.map PyComment.uid) =
      .ok ["P", "c1", "c3", "c2"] ∧
    c5second.map (fun t => t.comments.map PyComment.uid) =
      .ok ["P", "c3", "c2", "c1"] := ⟨rfl, rfl⟩

/-- C5 (corrected): on a thread-log that forms a single reply chain — a
top-level head followed by records each replying to the previous one, with
distinct nonempty uids — one load/save round trip is a fixed point: replaying
the log succeeds, replaying the tuples `save` writes succeeds again, the final
record list is unchanged, and the saved log is again a reply chain. -/
theorem replay_roundtrip_chain (es : List Entry) (h : ChainEntries es) :
    ∃ t t', Thread.replayEntries es = .ok t ∧
      Thread.replayEntries (Thread.saveEntries t) = .ok t' ∧
      t'.comments = t.comments ∧ ChainEntries (Thread.saveEntries t) := by
  cases es with
  | nil => exact h.elim
  | cons e0 rest =>
    obtain ⟨t, h1, h2, h3, h4⟩ := Thread.replay_chain e0 rest h
    have hch : ChainEntries (Thread.saveEntries t) := by
      rw [Thread.saveEntries, h2]
      exact chain_entries_saved e0 rest h (max e0.level 0)
    have hes2 : Thread.saveEntries t = Thread.entryOfComment { uid := e0.uid, level := max e0.level 0, order := max e0.order 0, parent := "", isDummy := false } :: (chainComments (max e0.level 0 + 1) e0.uid rest).map Thread.entryOfComment := by
      rw [Thread.saveEntries, h2]
      rfl
    have hch2 := hch
    rw [hes2] at hch2
    obtain ⟨t2, g1, g2, g3, g4⟩ := Thread.replay_chain _ _ hch2
    refine ⟨t, t2, h1, ?_, ?_, hch⟩
    · rw [hes2]
      exact g1
    · rw [g2]
      have hlv : (Thread.entryOfComment { uid := e0.uid, level := max e0.level 0, order := max e0.order 0, parent := "", isDummy := false }).level = max e0.level 0 := rfl
      rw [hlv, max_eq_left (le_max_right e0.level 0)]
      rw [show (Thread.entryOfComment { uid := e0.uid, level := max e0.level 0, order := max e0.order 0, parent := "", isDummy := false } :: (chainComments (max e0.level 0 + 1) e0.uid rest).map Thread.entryOfComment) = ((chainComments (max e0.level 0) "" (e0 :: rest)).map Thread.entryOfComment) from rfl]
      rw [chainComments_saved (e0 :: rest) (max e0.level 0) "" (max e0.level 0) ""]
      exact h2.symm

/-- A two-record reply chain used to instantiate the corrected C5 theorem. -/
def c5chain : List Entry :=
  [{ level := 0, order := 0, uid := "a", parent := none },
   { level := 1, order := 1, uid := "b", parent := some "a" }]

/-- Witness for the corrected C5: the two-record chain satisfies the
hypothesis and the round trip is a fixed point on it. -/
theorem replay_roundtrip_chain_witness :
    ChainEntries c5chain ∧
    ∃ t t', Thread.replayEntries c5chain = .ok t ∧
      Thread.replayEntries (Thread.saveEntries t) = .ok t' ∧
      t'.comments = t.comments ∧ ChainEntries (Thread.saveEntries t) :=
  ⟨by decide, replay_roundtrip_chain c5chain (by decide)⟩
